import Mathlib

/-!
Verification of the agent-skills-registry discovery layer.

The Python sources are shallowly embedded: strings are lists of characters
(`Str`), dictionaries are association lists, network fetches are oracle
functions passed as parameters, and the JSON storage file is explicit state.
Character-class predicates model Python's behaviour on the ASCII fragment,
which is the fragment the slug grammar and the canonical document format
are defined over.
-/

namespace AgentSkills

/-- Python `str` modelled as a list of characters. -/
abbrev Str := List Char

/-- Lowercase ASCII letter or ASCII digit, the character class `[a-z0-9]`. -/
def isLowerAlnum (c : Char) : Bool :=
  (97 ≤ c.toNat && c.toNat ≤ 122) || (48 ≤ c.toNat && c.toNat ≤ 57)

/-- ASCII alphanumeric, the class `[a-zA-Z0-9]`. -/
def isAsciiAlnum (c : Char) : Bool :=
  isLowerAlnum c || (65 ≤ c.toNat && c.toNat ≤ 90)

/-- The character class `[a-z0-9-]` of the slug grammar. -/
def isSlugChar (c : Char) : Bool :=
  isLowerAlnum c || c = '-'

/-- ASCII whitespace as matched by Python's `\s` and stripped by `str.strip()`
(space, tab, newline, carriage return, vertical tab, form feed). -/
def isPyWs (c : Char) : Bool :=
  c = ' ' || c = '\t' || c = '\n' || c = '\r' || c.toNat = 11 || c.toNat = 12

/-- The class `[\s_]` replaced by hyphens in `normalize_skill_name`. -/
def isWsOrUnderscore (c : Char) : Bool :=
  isPyWs c || c = '_'

/-- Python `str.lower` on the ASCII fragment: the ASCII uppercase letters
are shifted down by 32, every other character is kept. -/
def pyLower (c : Char) : Char :=
  if 65 ≤ c.toNat && c.toNat ≤ 90 then Char.ofNat (c.toNat + 32) else c

/-- Helper for `re.sub(pattern+, repl, s)` with a single-character class:
each maximal run of characters satisfying `p` is replaced by the single
character `r`.  The flag records whether the previous character was in a run. -/
def collapseRunsAux (p : Char → Bool) (r : Char) : Bool → Str → Str
  | _, [] => []
  | inRun, c :: cs =>
    if p c then
      if inRun then collapseRunsAux p r true cs
      else r :: collapseRunsAux p r true cs
    else c :: collapseRunsAux p r false cs

def collapseRuns (p : Char → Bool) (r : Char) (s : Str) : Str :=
  collapseRunsAux p r false s

/-- Python `str.lstrip` restricted to characters satisfying `p`. -/
def lstripP (p : Char → Bool) (s : Str) : Str := s.dropWhile p

/-- Python `str.rstrip` restricted to characters satisfying `p`. -/
def rstripP (p : Char → Bool) (s : Str) : Str := (s.reverse.dropWhile p).reverse

/-- Python `str.strip` restricted to characters satisfying `p`. -/
def stripP (p : Char → Bool) (s : Str) : Str := rstripP p (lstripP p s)

/-- `normalize_skill_name` from `src/schemas/models.py`: lowercase, replace
whitespace/underscore runs with hyphens, drop characters outside `[a-z0-9-]`,
collapse hyphen runs, strip boundary hyphens, truncate to 64 characters
re-stripping a trailing hyphen. -/
def normalize_skill_name (name : Str) : Str :=
  let slug := name.map pyLower
  let slug := collapseRuns isWsOrUnderscore '-' slug
  let slug := slug.filter isSlugChar
  let slug := collapseRuns (fun c => c = '-') '-' slug
  let slug := stripP (fun c => c = '-') slug
  if slug.length > 64 then rstripP (fun c => c = '-') (slug.take 64) else slug

/-- The core of `SKILL_NAME_PATTERN = ^[a-z0-9](?:[a-z0-9-]{0,62}[a-z0-9])?$`
without the `$`-before-final-newline allowance: one lowercase alphanumeric
character, optionally followed by up to 62 characters in `[a-z0-9-]` and a
final lowercase alphanumeric character. -/
def matchesSlugCore (s : Str) : Bool :=
  match s with
  | [] => false
  | c :: rest =>
    if rest.isEmpty then isLowerAlnum c
    else isLowerAlnum c && isLowerAlnum (rest.getLastD c)
      && rest.dropLast.all isSlugChar && rest.length ≤ 63

/-- `re.match(SKILL_NAME_PATTERN, s)` succeeds: Python's `$` also matches just
before a single trailing newline. -/
def SKILL_NAME_PATTERN_match (s : Str) : Bool :=
  matchesSlugCore s ||
    (s.getLast? = some '\n' && matchesSlugCore s.dropLast)

/-- `validate_skill_name` from `src/schemas/models.py`, modelled as a Boolean:
`true` when the function returns the name, `false` when it raises
`ValueError` (empty, longer than 64 characters, or failing the pattern). -/
def validate_skill_name (name : Str) : Bool :=
  !(name.isEmpty || name.length > 64) && SKILL_NAME_PATTERN_match name

/-- Two adjacent characters both satisfying `p` occur somewhere in the string. -/
def hasAdjPair (p : Char → Bool) : Str → Bool
  | c :: d :: rest => (p c && p d) || hasAdjPair p (d :: rest)
  | _ => false

/-- The slug grammar as C9 states it: length 1 to 64, starts and ends with a
lowercase alphanumeric, every character in `[a-z0-9-]`, and no two
consecutive hyphens. -/
def strictSlugGrammar (s : Str) : Bool :=
  !s.isEmpty && s.length ≤ 64 && s.all isSlugChar
    && (match s.head? with | some c => isLowerAlnum c | none => false)
    && (match s.getLast? with | some c => isLowerAlnum c | none => false)
    && !hasAdjPair (fun c => c = '-') s

/-- The tail of the `normalize_skill_name` pipeline after the character
filter: collapse hyphen runs, strip boundary hyphens, truncate to 64
characters re-stripping a trailing hyphen.  Split out so the pipeline can be
reasoned about stage by stage. -/
def normTail (m : Str) : Str :=
  if (stripP (fun c => c = '-') (collapseRuns (fun c => c = '-') '-' m)).length > 64
  then rstripP (fun c => c = '-')
    ((stripP (fun c => c = '-') (collapseRuns (fun c => c = '-') '-' m)).take 64)
  else stripP (fun c => c = '-') (collapseRuns (fun c => c = '-') '-' m)

/-- Canonical-form invariant maintained by the normalizer pipeline: every
character is in `[a-z0-9-]`, there are no two consecutive hyphens, the first
and last characters (when present) are lowercase alphanumeric, and the
length is at most 64. -/
def canonProps (s : Str) : Prop :=
  (∀ c ∈ s, isSlugChar c = true) ∧
  hasAdjPair (fun c => c = '-') s = false ∧
  (∀ c, s.head? = some c → isLowerAlnum c = true) ∧
  (∀ c, s.getLast? = some c → isLowerAlnum c = true) ∧
  s.length ≤ 64

/-- The distance-to-score conversion in `search_skills` (`src/main.py`):
`score = 1 / (1 + distance)`, modelled over the rationals. -/
def score (distance : ℚ) : ℚ := 1 / (1 + distance)

/-! ### Data model (`src/schemas/models.py`) -/

/-- A JSON-like value as handled by the Python code (schema documents,
example payloads). -/
inductive PyVal where
  | str (s : Str)
  | int (n : Int)
  | bool (b : Bool)
  | null
  | list (items : List PyVal)
  | dict (entries : List (Str × PyVal))

/-- A JSON object (Python `Dict[str, Any]`) with insertion order. -/
abbrev PyDict := List (Str × PyVal)

/-- `SkillFile`: a file associated with a skill. -/
structure SkillFile where
  path : Str
  content_type : Option Str
  description : Option Str
deriving DecidableEq

/-- A fully populated `Skill` pydantic model: `SkillInput` fields plus the
auto-generated `id`, `slug`, `created_at`, `updated_at`, `files`.  The
nondeterministic defaults (`uuid4`, `utcnow`) are the values the fields hold
after construction. -/
structure Skill where
  name : Str
  description : Str
  input_schema : PyDict
  output_schema : Option PyDict
  tags : List Str
  version : Str
  author : Option Str
  documentation : Option Str
  examples : Option (List PyDict)
  id : Str
  slug : Str
  created_at : Str
  updated_at : Str
  files : List SkillFile

/-- `SkillLevel1`: index metadata only. -/
structure SkillLevel1 where
  name : Str
  description : Str
deriving DecidableEq

/-- `SkillLevel2`: full SKILL.md metadata. -/
structure SkillLevel2 where
  name : Str
  description : Str
  version : Str
  author : Option Str
  tags : List Str
  input_schema : PyDict
  output_schema : Option PyDict
  documentation : Option Str
  examples : Option (List PyDict)

/-- `SkillLevel3`: a Level2 projection plus a path-to-content resource map.
The Python `Dict[str, str]` is an insertion-ordered association list. -/
structure SkillLevel3 where
  skill : SkillLevel2
  resources : List (Str × Str)

/-- `RemoteSkillInfo`: a skill discovered on a remote origin. -/
structure RemoteSkillInfo where
  origin : Str
  name : Str
  description : Str
  files : List Str
  skill_url : Str
deriving DecidableEq

/-- `DiscoveryResult`: all skills discovered from one origin. -/
structure DiscoveryResult where
  origin : Str
  skills : List RemoteSkillInfo
  fetched_at : Str
deriving DecidableEq

/-! ### Python dictionaries keyed by strings -/

/-- `d[k] = v` on a Python `dict`: replace in place when the key exists,
append otherwise. -/
def dictInsert (k : Str) (v : Str) (d : List (Str × Str)) : List (Str × Str) :=
  if d.any (fun kv => kv.1 == k) then
    d.map (fun kv => if kv.1 == k then (k, v) else kv)
  else d ++ [(k, v)]

/-- `d.get(k)` on a Python `dict`. -/
def dictGet? (d : List (Str × Str)) (k : Str) : Option Str :=
  (d.find? (fun kv => kv.1 == k)).map (fun kv => kv.2)

/-! ### Registry storage model (`src/services/registry.py`)

The JSON storage file holds a list of objects.  A stored record is modelled
with one `Option` per key: `none` when the key is absent (legacy records),
`some` when present.  For the keys whose stored value can itself be JSON
`null` (`output_schema`, `author`, `documentation`, `examples`), the inner
`Option` is the value. -/

@[ext]
structure StoredSkill where
  name : Option Str
  description : Option Str
  input_schema : Option PyDict
  output_schema : Option (Option PyDict)
  tags : Option (List Str)
  version : Option Str
  author : Option (Option Str)
  documentation : Option (Option Str)
  examples : Option (Option (List PyDict))
  id : Option Str
  slug : Option Str
  created_at : Option Str
  updated_at : Option Str
  files : Option (List SkillFile)

/-- `skill.model_dump()`: every key present. -/
def Skill.model_dump (s : Skill) : StoredSkill where
  name := some s.name
  description := some s.description
  input_schema := some s.input_schema
  output_schema := some s.output_schema
  tags := some s.tags
  version := some s.version
  author := some s.author
  documentation := some s.documentation
  examples := some s.examples
  id := some s.id
  slug := some s.slug
  created_at := some s.created_at
  updated_at := some s.updated_at
  files := some s.files

/-- The storage file contents: either a JSON list of records or invalid
JSON (on which `json.load` raises `JSONDecodeError`). -/
inductive StorageContent where
  | json (records : List StoredSkill)
  | corrupt (raw : Str)

namespace RegistryService

/-- `RegistryService._load`: parse the storage file, returning `[]` when the
JSON is invalid. -/
def load : StorageContent → List StoredSkill
  | .json rs => rs
  | .corrupt _ => []

/-- `RegistryService._ensure_skill_fields` (migration back-fill).  In Python
this mutates the record dict in place, key by key, and returns it; each
mutated key's default reads only keys no earlier step writes (`slug` reads
`name`, `updated_at` reads `created_at`), so the sequential mutation equals
this simultaneous record update. -/
def ensure_skill_fields (r : StoredSkill) : StoredSkill :=
  { r with
    slug := if (r.slug.getD []).isEmpty then
      some (normalize_skill_name (r.name.getD [])) else r.slug
    files := if r.files.isNone then
      some [⟨("SKILL.md").data, some ("text/markdown").data, none⟩] else r.files
    version := if r.version.isNone then some ("1.0.0").data else r.version
    output_schema := if r.output_schema.isNone then some none
      else r.output_schema
    author := if r.author.isNone then some none else r.author
    documentation := if r.documentation.isNone then some none
      else r.documentation
    examples := if r.examples.isNone then some none else r.examples
    updated_at := if r.updated_at.isNone then some (r.created_at.getD [])
      else r.updated_at }

/-- The slug-lookup loop of `register_skill`: each scanned record is
back-filled in place (the Python dict is mutated inside `skills_data`), and
the loop breaks at the first back-filled record whose slug matches.  Returns
the updated list and the matching index. -/
def scanForSlug (slug : Str) : List StoredSkill → List StoredSkill × Option Nat
  | [] => ([], none)
  | r :: rest =>
    let r' := ensure_skill_fields r
    if r'.slug = some slug then (r' :: rest, some 0)
    else
      let res := scanForSlug slug rest
      (r' :: res.1, res.2.map (· + 1))

/-- `RegistryService.register_skill`: upsert by slug.  Returns the saved
storage list and the record handed to `Skill(**skill_dict)`. -/
def register_skill (skill : Skill) (stored : List StoredSkill) :
    List StoredSkill × StoredSkill :=
  let scanned := scanForSlug skill.slug stored
  let skill_dict := skill.model_dump
  match scanned.2 with
  | some i =>
    let existing := scanned.1.getD i skill_dict
    let dict2 := { skill_dict with
      id := some (existing.id.getD skill.id)
      created_at := some (existing.created_at.getD skill.created_at) }
    (scanned.1.set i dict2, dict2)
  | none => (scanned.1 ++ [skill_dict], skill_dict)

/-- `RegistryService.delete_skill_by_slug`: the filter predicate back-fills
each record in place, so when a deletion happens the saved survivors are the
back-filled records; when nothing matches, the file is not rewritten. -/
def delete_skill_by_slug (slug : Str) (st : List StoredSkill) :
    List StoredSkill × Bool :=
  let kept := (st.map ensure_skill_fields).filter
    (fun s => ¬ (s.slug = some slug))
  if kept.length < st.length then (kept, true) else (st, false)

/-- `Skill(**item)`: pydantic construction from a stored record.  Required
fields must be present (else a `ValidationError` is raised, modelled as
`none`); the description length bound is enforced; defaulted fields use the
freshly generated `fresh_id` / `now` and the `__init__` slug back-fill. -/
def skillOfStored (fresh_id now : Str) (r : StoredSkill) : Option Skill :=
  match r.name, r.description, r.input_schema with
  | some n, some d, some sch =>
    if d.length > 1024 then none
    else
      let slug0 := r.slug.getD []
      some {
        name := n
        description := d
        input_schema := sch
        output_schema := r.output_schema.getD none
        tags := r.tags.getD []
        version := r.version.getD ("1.0.0").data
        author := r.author.getD none
        documentation := r.documentation.getD none
        examples := r.examples.getD none
        id := r.id.getD fresh_id
        slug := if slug0 = [] then normalize_skill_name n else slug0
        created_at := r.created_at.getD now
        updated_at := r.updated_at.getD now
        files := r.files.getD [⟨("SKILL.md").data, some ("text/markdown").data,
          none⟩] }
  | _, _, _ => none

/-- `RegistryService.list_skills`: load, back-fill, construct.  `genId` and
`genTime` supply the per-record nondeterministic defaults; `none` models a
raised `ValidationError`. -/
def list_skills_from (genId genTime : ℕ → Str) (i : ℕ) :
    List StoredSkill → Option (List Skill)
  | [] => some []
  | r :: rest =>
    match skillOfStored (genId i) (genTime i) (ensure_skill_fields r) with
    | none => none
    | some s => (list_skills_from genId genTime (i + 1) rest).map (s :: ·)

def list_skills (genId genTime : ℕ → Str) (c : StorageContent) :
    Option (List Skill) :=
  list_skills_from genId genTime 0 (load c)

/-- `RegistryService.get_skill`: linear scan by id over `list_skills`. -/
def get_skill (genId genTime : ℕ → Str) (c : StorageContent)
    (skill_id : Str) : Option (Option Skill) :=
  (list_skills genId genTime c).map
    (fun l => l.find? (fun s => s.id == skill_id))

/-- `RegistryService.get_skill_by_slug`. -/
def get_skill_by_slug (genId genTime : ℕ → Str) (c : StorageContent)
    (slug : Str) : Option (Option Skill) :=
  (list_skills genId genTime c).map
    (fun l => l.find? (fun s => s.slug == slug))

/-- `RegistryService.search_by_tags`: records having any of the given tags. -/
def search_by_tags (genId genTime : ℕ → Str) (c : StorageContent)
    (tags : List Str) : Option (List Skill) :=
  (list_skills genId genTime c).map
    (fun l => l.filter (fun s => tags.any (fun t => s.tags.contains t)))

/-- First stored record whose back-filled slug matches: the storage-level
notion of "the record stored under this slug". -/
def findStoredBySlug (slug : Str) (records : List StoredSkill) :
    Option StoredSkill :=
  records.find? (fun r => (ensure_skill_fields r).slug == some slug)

end RegistryService

/-! ### Discovery client and service (`src/services/discovery.py`) -/

namespace DiscoveryClient

/-- One step of the dict comprehension
`{path: content for path, content in results if content is not None}`. -/
def fetchStep (d : List (Str × Str)) (pc : Str × Option Str) :
    List (Str × Str) :=
  match pc.2 with
  | some content => dictInsert pc.1 content d
  | none => d

/-- `DiscoveryClient.fetch_all_resources`: one fetch per path; each failure
is caught by `fetch_one` and excluded from the result dict.  The network is
an oracle mapping a path to `some content` or `none` (any exception). -/
def fetch_all_resources (fetchOracle : Str → Option Str) (files : List Str) :
    List (Str × Str) :=
  let results := files.map (fun f => (f, fetchOracle f))
  results.foldl fetchStep []

end DiscoveryClient

namespace DiscoveryService

/-- An item returned by `asyncio.gather(..., return_exceptions=True)`:
either a `DiscoveryResult` or a raised exception. -/
inductive GatherItem where
  | result (r : DiscoveryResult)
  | exn (msg : Str)
deriving DecidableEq

/-- `DiscoveryService.discover_from_all_trusted`: fan out `discover` over
the trusted origins and keep only the values that are `DiscoveryResult`s. -/
def discover_from_all_trusted (discoverOracle : Str → GatherItem)
    (trusted : List Str) : List DiscoveryResult :=
  let results := trusted.map discoverOracle
  results.filterMap
    (fun r =>
      match r with
      | .result d => some d
      | .exn _ => none)

end DiscoveryService

/-! ### Renderer projections and resource files (`src/services/skill_renderer.py`, `src/main.py`) -/

namespace SkillRenderer

/-- `SkillRenderer.get_skill_level1`. -/
def get_skill_level1 (skill : Skill) : SkillLevel1 :=
  { name := skill.slug, description := skill.description }

/-- `SkillRenderer.get_skill_level2`. -/
def get_skill_level2 (skill : Skill) : SkillLevel2 :=
  { name := skill.slug
    description := skill.description
    version := skill.version
    author := skill.author
    tags := skill.tags
    input_schema := skill.input_schema
    output_schema := skill.output_schema
    documentation := skill.documentation
    examples := skill.examples }

/-- `SkillRenderer.get_skill_level3`. -/
def get_skill_level3 (skill : Skill) (resources : List (Str × Str)) :
    SkillLevel3 :=
  { skill := get_skill_level2 skill, resources := resources }

/-- The files under a skill's directory, modelled as relative-path/content
pairs; `SkillRenderer.list_skill_files` is the `os.walk` enumeration of the
relative paths. -/
def list_skill_files (fs : List (Str × Str)) : List Str :=
  fs.map (fun e => e.1)

/-- `SkillRenderer.read_skill_file`: content of the file at `path`, `none`
when absent. -/
def read_skill_file (fs : List (Str × Str)) (path : Str) : Option Str :=
  (fs.find? (fun e => e.1 == path)).map (fun e => e.2)

end SkillRenderer

/-- One iteration of the resource-collection loop in the `get_skill_level3`
endpoint: read the file, keep it only when the content is truthy. -/
def level3Step (fs : List (Str × Str)) (acc : List (Str × Str)) (p : Str) :
    List (Str × Str) :=
  match SkillRenderer.read_skill_file fs p with
  | some content => if content.isEmpty then acc else dictInsert p content acc
  | none => acc

/-- The `get_skill_level3` endpoint in `src/main.py`: enumerate the files in
the skill's directory, read each, keep the non-empty successful reads. -/
def get_skill_level3_endpoint (skill : Skill) (fs : List (Str × Str)) :
    SkillLevel3 :=
  let files := SkillRenderer.list_skill_files fs
  let resources := files.foldl (level3Step fs) []
  SkillRenderer.get_skill_level3 skill resources

/-! ### Canonical document codec
(`SkillRenderer.render_skill_md`, `DiscoveryClient.parse_skill_md`) -/

/-- The double-quote character. -/
def qd : Char := Char.ofNat 34

/-- The single-quote character. -/
def qs : Char := Char.ofNat 39

/-- The quote characters stripped by `value.strip('"\'')` in the parser. -/
def isQuoteChar (c : Char) : Bool := c = qd || c = qs

/-- Python `str.strip()` (whitespace, ASCII fragment). -/
def pyStripWs (s : Str) : Str := stripP isPyWs s

/-- `value.strip('"\'')`. -/
def stripQuotes (s : Str) : Str := stripP isQuoteChar s

/-- The fixed special-character set that makes `_dict_to_yaml` quote a
string value (colon, hash, braces, brackets, comma, ampersand, asterisk,
question mark, pipe, hyphen, angle brackets, equals, bang, percent, at
sign, backtick). -/
def specialYamlChars : List Char :=
  [':', '#', Char.ofNat 123, Char.ofNat 125, '[', ']', ',', '&', '*', '?',
   '|', '-', '<', '>', '=', '!', '%', '@', Char.ofNat 96]

def needsQuoting (s : Str) : Bool := s.any (fun c => specialYamlChars.contains c)

/-- Python `content.split("\n")`. -/
def splitNl : Str → List Str
  | [] => [[]]
  | c :: cs =>
    if c = '\n' then [] :: splitNl cs
    else
      match splitNl cs with
      | [] => [[c]]
      | h :: t => (c :: h) :: t

/-- Python `"\n".join(lines)`. -/
def joinNl : List Str → Str
  | [] => []
  | [l] => l
  | l :: ls => l ++ '\n' :: joinNl ls

/-- The scan for the closing front-matter delimiter: index of the first line
whose stripped form is `---`. -/
def findDelim : List Str → Option Nat
  | [] => none
  | l :: rest =>
    if pyStripWs l = ("---").data then some 0
    else (findDelim rest).map (· + 1)

/-- `stripped.partition(":")`: the part before the first colon and the part
after it. -/
def partitionColon (s : Str) : Str × Str :=
  (s.takeWhile (fun c => ¬ (c = ':')),
   (s.dropWhile (fun c => ¬ (c = ':'))).drop 1)

mutual

/-- Python `repr` for JSON-like values (used by f-string interpolation of
non-scalar values in the YAML writer; never hit by well-formed skills). -/
def pyRepr : PyVal → Str
  | .str s => qs :: s ++ [qs]
  | .int n => (toString n).data
  | .bool b => if b then ("True").data else ("False").data
  | .null => ("None").data
  | .list items => '[' :: pyReprItems items ++ [']']
  | .dict entries => Char.ofNat 123 :: pyReprEntries entries ++ [Char.ofNat 125]

def pyReprItems : List PyVal → Str
  | [] => []
  | [v] => pyRepr v
  | v :: rest => pyRepr v ++ (", ").data ++ pyReprItems rest

def pyReprEntries : List (Str × PyVal) → Str
  | [] => []
  | [(k, v)] => (qs :: k ++ [qs]) ++ (": ").data ++ pyRepr v
  | (k, v) :: rest =>
    (qs :: k ++ [qs]) ++ (": ").data ++ pyRepr v ++ (", ").data
      ++ pyReprEntries rest

end

/-- Python `str(value)` / f-string interpolation of a JSON-like value. -/
def pyStr : PyVal → Str
  | .str s => s
  | .int n => (toString n).data
  | .bool b => if b then ("True").data else ("False").data
  | .null => ("None").data
  | .list items => pyRepr (.list items)
  | .dict entries => pyRepr (.dict entries)

/-- JSON string escaping as performed by `json.dumps`. -/
def jsonEscapeChar (c : Char) : Str :=
  if c = Char.ofNat 92 then [Char.ofNat 92, Char.ofNat 92]
  else if c = qd then [Char.ofNat 92, qd]
  else if c = '\n' then [Char.ofNat 92, 'n']
  else if c = '\t' then [Char.ofNat 92, 't']
  else if c = '\r' then [Char.ofNat 92, 'r']
  else [c]

def jsonEscape (s : Str) : Str := (s.map jsonEscapeChar).flatten

mutual

/-- `json.dumps(value, indent=2)` at nesting level `lvl`.  Only appears in
the Markdown body of the canonical document. -/
def jsonDumps : PyVal → Nat → Str
  | .str s, _ => qd :: jsonEscape s ++ [qd]
  | .int n, _ => (toString n).data
  | .bool b, _ => if b then ("true").data else ("false").data
  | .null, _ => ("null").data
  | .dict [], _ => [Char.ofNat 123, Char.ofNat 125]
  | .dict entries, lvl =>
    Char.ofNat 123 :: '\n' :: jsonDictBody entries (lvl + 1)
      ++ '\n' :: List.replicate (2 * lvl) ' ' ++ [Char.ofNat 125]
  | .list [], _ => ['[', ']']
  | .list items, lvl =>
    '[' :: '\n' :: jsonListBody items (lvl + 1)
      ++ '\n' :: List.replicate (2 * lvl) ' ' ++ [']']

def jsonDictBody : List (Str × PyVal) → Nat → Str
  | [], _ => []
  | [(k, v)], lvl =>
    List.replicate (2 * lvl) ' ' ++ (qd :: jsonEscape k ++ [qd])
      ++ (": ").data ++ jsonDumps v lvl
  | (k, v) :: rest, lvl =>
    List.replicate (2 * lvl) ' ' ++ (qd :: jsonEscape k ++ [qd])
      ++ (": ").data ++ jsonDumps v lvl ++ [','] ++ '\n' :: jsonDictBody rest lvl

def jsonListBody : List PyVal → Nat → Str
  | [], _ => []
  | [v], lvl => List.replicate (2 * lvl) ' ' ++ jsonDumps v lvl
  | v :: rest, lvl =>
    List.replicate (2 * lvl) ' ' ++ jsonDumps v lvl ++ [',']
      ++ '\n' :: jsonListBody rest lvl

end

mutual

/-- `SkillRenderer._dict_to_yaml`: maps, lists of scalars and lists of maps
rendered as indented blocks; booleans lowercased; strings quoted when they
contain a special character. -/
def yamlDict : PyDict → Nat → List Str
  | [], _ => []
  | (key, value) :: rest, indent =>
    (match value with
     | .dict entries =>
       (List.replicate indent ' ' ++ key ++ (":").data)
         :: yamlDict entries (indent + 2)
     | .list items =>
       (List.replicate indent ' ' ++ key ++ (":").data)
         :: yamlItems items indent
     | .bool b =>
       [List.replicate indent ' ' ++ key ++ (": ").data
         ++ (if b then ("true").data else ("false").data)]
     | .str s =>
       if needsQuoting s then
         [List.replicate indent ' ' ++ key ++ (": ").data ++ qd :: s ++ [qd]]
       else [List.replicate indent ' ' ++ key ++ (": ").data ++ s]
     | v => [List.replicate indent ' ' ++ key ++ (": ").data ++ pyStr v])
    ++ yamlDict rest indent

def yamlItems : List PyVal → Nat → List Str
  | [], _ => []
  | item :: rest, indent =>
    (match item with
     | .dict entries =>
       (List.replicate indent ' ' ++ ("  -").data)
         :: yamlDict entries (indent + 4)
     | v => [List.replicate indent ' ' ++ ("  - ").data ++ pyStr v])
    ++ yamlItems rest indent

end

/-- `example.get(key)` on an example dict. -/
def pyDictGet? (d : PyDict) (k : Str) : Option PyVal :=
  (d.find? (fun kv => kv.1 == k)).map (fun kv => kv.2)

/-- Python `", ".join(items)`. -/
def joinCommaSp : List Str → Str
  | [] => []
  | [s] => s
  | s :: rest => s ++ (", ").data ++ joinCommaSp rest

namespace SkillRenderer

/-- The YAML front-matter lines of `render_skill_md`, delimiters included,
with the trailing blank line. -/
def yamlLines (skill : Skill) : List Str :=
  [("---").data]
  ++ [("name: ").data ++ skill.slug]
  ++ [("description: ").data ++ (qd :: (skill.description ++ [qd]))]
  ++ [("version: ").data ++ skill.version]
  ++ (match skill.author with
      | some a => if a.isEmpty then [] else [("author: ").data ++ a]
      | none => [])
  ++ (if skill.tags.isEmpty then []
      else ("tags:").data :: skill.tags.map (fun t => ("  - ").data ++ t))
  ++ (if skill.input_schema.isEmpty then []
      else ("input_schema:").data :: yamlDict skill.input_schema 2)
  ++ (match skill.output_schema with
      | some o =>
        if o.isEmpty then [] else ("output_schema:").data :: yamlDict o 2
      | none => [])
  ++ [("---").data, []]

/-- The lines of one rendered example (Python appends `example["description"]`
directly; a non-string value is modelled by its string form). -/
def exampleLines : List PyDict → Nat → List Str
  | [], _ => []
  | ex :: rest, i =>
    (([("### Example ").data ++ (toString i).data, []]
      ++ (match pyDictGet? ex ("description").data with
          | some v => [pyStr v, []]
          | none => [])
      ++ (match pyDictGet? ex ("input").data with
          | some v => [("**Input:**").data, ("```json").data, jsonDumps v 0,
              ("```").data, []]
          | none => [])
      ++ (match pyDictGet? ex ("output").data with
          | some v => [("**Output:**").data, ("```json").data, jsonDumps v 0,
              ("```").data, []]
          | none => [])))
    ++ exampleLines rest (i + 1)

/-- The Markdown body lines of `render_skill_md`. -/
def mdLines (skill : Skill) : List Str :=
  [("# ").data ++ skill.name, [], skill.description, []]
  ++ (match skill.documentation with
      | some d =>
        if d.isEmpty then [] else [("## Documentation").data, [], d, []]
      | none => [])
  ++ [("## Input Schema").data, [], ("```json").data,
      jsonDumps (.dict skill.input_schema) 0, ("```").data, []]
  ++ (match skill.output_schema with
      | some o =>
        if o.isEmpty then []
        else [("## Output Schema").data, [], ("```json").data,
          jsonDumps (.dict o) 0, ("```").data, []]
      | none => [])
  ++ (match skill.examples with
      | some exs =>
        if exs.isEmpty then []
        else ("## Examples").data :: [] :: exampleLines exs 1
      | none => [])
  ++ (if skill.tags.isEmpty then []
      else [("## Tags").data, [],
        joinCommaSp (skill.tags.map
          (fun t => Char.ofNat 96 :: t ++ [Char.ofNat 96])), []])

/-- `SkillRenderer.render_skill_md`: front matter then body, newline-joined. -/
def render_skill_md (skill : Skill) : Str :=
  joinNl (yamlLines skill ++ mdLines skill)

end SkillRenderer

/-- A parsed front-matter value: a scalar or a dash-list of scalars. -/
inductive MetaVal where
  | str (s : Str)
  | lst (items : List Str)
deriving DecidableEq

abbrev Metadata := List (Str × MetaVal)

/-- `result["metadata"][key] = v` (Python dict assignment). -/
def metaSet (key : Str) (v : MetaVal) : Metadata → Metadata
  | [] => [(key, v)]
  | (k, w) :: rest =>
    if k = key then (k, v) :: rest else (k, w) :: metaSet key v rest

/-- `current_list.append(item)`: the list object stored under the key that
most recently opened a list. -/
def metaAppend (key : Str) (item : Str) : Metadata → Metadata
  | [] => []
  | (k, w) :: rest =>
    if k = key then
      (k, match w with
          | .lst l => .lst (l ++ [item])
          | .str s => .str s) :: rest
    else (k, w) :: metaAppend key item rest

/-- `result["metadata"][key]` lookup. -/
def metaGet? (md : Metadata) (key : Str) : Option MetaVal :=
  (md.find? (fun kv => kv.1 == key)).map (fun kv => kv.2)

/-- The parser's loop state: the metadata dict and the key that most
recently opened a list (`current_key` / `current_list`). -/
structure ParseState where
  metadata : Metadata
  currentKey : Option Str

/-- One iteration of the flat front-matter line parser in
`parse_skill_md`. -/
def processLine (st : ParseState) (line : Str) : ParseState :=
  let stripped := pyStripWs line
  if stripped.isEmpty then st
  else if (("- ").data).isPrefixOf stripped then
    match st.currentKey with
    | some k =>
      { st with metadata :=
          (metaAppend k (pyStripWs (stripped.drop 2)) st.metadata) }
    | none => st
  else if stripped.contains ':' then
    let kv := partitionColon stripped
    let key := pyStripWs kv.1
    let value := pyStripWs kv.2
    if value.isEmpty then
      { metadata := metaSet key (.lst []) st.metadata, currentKey := some key }
    else
      { metadata := metaSet key (.str (stripQuotes value)) st.metadata,
        currentKey := none }
  else st

structure ParseResult where
  metadata : Metadata
  body : Str

namespace DiscoveryClient

/-- `DiscoveryClient.parse_skill_md`: split into lines; without a leading
`---` line or a closing delimiter the whole input is the body; otherwise
run the flat line parser over the bounded front-matter region. -/
def parse_skill_md (content : Str) : ParseResult :=
  let lines := splitNl content
  match lines with
  | [] => { metadata := [], body := content }
  | first :: _ =>
    if ¬ (pyStripWs first = ("---").data) then
      { metadata := [], body := content }
    else
      match findDelim (lines.drop 1) with
      | none => { metadata := [], body := content }
      | some j =>
        let fm := (lines.drop 1).take j
        let st := fm.foldl processLine { metadata := [], currentKey := none }
        { metadata := st.metadata,
          body := pyStripWs (joinNl (lines.drop (j + 2))) }

end DiscoveryClient

/-! ### Character-class facts -/

lemma char_eq_iff_toNat {c d : Char} : c = d ↔ c.toNat = d.toNat := by
  constructor
  · rintro rfl; rfl
  · intro h
    apply Char.ext
    exact UInt32.ext h

lemma isLowerAlnum_iff {c : Char} :
    isLowerAlnum c = true ↔
      (97 ≤ c.toNat ∧ c.toNat ≤ 122) ∨ (48 ≤ c.toNat ∧ c.toNat ≤ 57) := by
  simp [isLowerAlnum]

lemma isAsciiAlnum_iff {c : Char} :
    isAsciiAlnum c = true ↔
      isLowerAlnum c = true ∨ (65 ≤ c.toNat ∧ c.toNat ≤ 90) := by
  simp [isAsciiAlnum]

lemma isSlugChar_iff {c : Char} :
    isSlugChar c = true ↔ isLowerAlnum c = true ∨ c.toNat = 45 := by
  have h45 : ('-').toNat = 45 := rfl
  simp [isSlugChar, char_eq_iff_toNat, h45]

lemma isPyWs_iff {c : Char} :
    isPyWs c = true ↔
      c.toNat = 32 ∨ c.toNat = 9 ∨ c.toNat = 10 ∨ c.toNat = 13 ∨
      c.toNat = 11 ∨ c.toNat = 12 := by
  have h1 : (' ').toNat = 32 := rfl
  have h2 : ('\t').toNat = 9 := rfl
  have h3 : ('\n').toNat = 10 := rfl
  have h4 : ('\r').toNat = 13 := rfl
  simp only [isPyWs, Bool.or_eq_true, decide_eq_true_eq, char_eq_iff_toNat,
    h1, h2, h3, h4]
  tauto

lemma isWsOrUnderscore_iff {c : Char} :
    isWsOrUnderscore c = true ↔ isPyWs c = true ∨ c.toNat = 95 := by
  have h95 : ('_').toNat = 95 := rfl
  simp [isWsOrUnderscore, char_eq_iff_toNat, h95]

lemma pyLower_of_slugChar {c : Char} (h : isSlugChar c = true) : pyLower c = c := by
  rcases isSlugChar_iff.mp h with h' | h'
  · rcases isLowerAlnum_iff.mp h' with h'' | h'' <;>
      · unfold pyLower
        rw [if_neg]
        simp only [Bool.and_eq_true, decide_eq_true_eq, not_and]
        omega
  · unfold pyLower
    rw [if_neg]
    simp only [Bool.and_eq_true, decide_eq_true_eq, not_and]
    omega

lemma isLowerAlnum_pyLower {c : Char} (h : isAsciiAlnum c = true) :
    isLowerAlnum (pyLower c) = true := by
  rcases isAsciiAlnum_iff.mp h with h' | h'
  · have hs : isSlugChar c = true := isSlugChar_iff.mpr (Or.inl h')
    rw [pyLower_of_slugChar hs]
    exact h'
  · have hval : (Char.ofNat (c.toNat + 32)).toNat = c.toNat + 32 := by
      have hv : (c.toNat + 32).isValidChar := Or.inl (by omega)
      rw [Char.ofNat, dif_pos hv]
      rfl
    unfold pyLower
    rw [if_pos (by simp only [Bool.and_eq_true, decide_eq_true_eq]; omega)]
    rw [isLowerAlnum_iff, hval]
    omega

lemma not_ws_of_slugChar {c : Char} (h : isSlugChar c = true) :
    isWsOrUnderscore c = false := by
  rw [Bool.eq_false_iff]
  intro hw
  rcases isSlugChar_iff.mp h with h' | h'
  · rcases isLowerAlnum_iff.mp h' with h'' | h'' <;>
      rcases isWsOrUnderscore_iff.mp hw with hw' | hw' <;>
        first
          | omega
          | (rcases isPyWs_iff.mp hw' with p | p | p | p | p | p <;> omega)
  · rcases isWsOrUnderscore_iff.mp hw with hw' | hw'
    · rcases isPyWs_iff.mp hw' with p | p | p | p | p | p <;> omega
    · omega

lemma not_hyphen_of_lowerAlnum {c : Char} (h : isLowerAlnum c = true) :
    c ≠ '-' := by
  intro hc
  rcases isLowerAlnum_iff.mp h with h' | h' <;>
    · rw [hc] at h'
      revert h'
      decide

lemma isLowerAlnum_of_slug_not_hyphen {c : Char} (h : isSlugChar c = true)
    (hne : c ≠ '-') : isLowerAlnum c = true := by
  rcases isSlugChar_iff.mp h with h' | h'
  · exact h'
  · exfalso
    exact hne (char_eq_iff_toNat.mpr (by simpa using h'))

lemma slugChar_not_nl {c : Char} (h : isSlugChar c = true) : c ≠ '\n' := by
  intro hc
  rcases isSlugChar_iff.mp h with h' | h'
  · rcases isLowerAlnum_iff.mp h' with h'' | h'' <;>
      · rw [hc] at h''
        revert h''
        decide
  · rw [hc] at h'
    revert h'
    decide

/-! ### Generic list facts for the normalizer pipeline -/

section ListFacts

variable {p : Char → Bool} {r : Char}

lemma mem_dropWhile_of_not {c : Char} {l : Str} (hm : c ∈ l) (hc : p c = false) :
    c ∈ l.dropWhile p := by
  induction l with
  | nil => simp at hm
  | cons a t ih =>
    rw [List.dropWhile_cons]
    rcases List.mem_cons.mp hm with rfl | ht
    · rw [hc]
      simp
    · by_cases hp : p a = true
      · rw [if_pos hp]
        exact ih ht
      · rw [if_neg hp]
        exact List.mem_cons_of_mem _ ht

lemma head?_dropWhile_not {c : Char} {l : Str}
    (hc : (l.dropWhile p).head? = some c) : p c = false := by
  induction l with
  | nil => simp [List.dropWhile] at hc
  | cons a t ih =>
    rw [List.dropWhile_cons] at hc
    by_cases hp : p a = true
    · rw [if_pos hp] at hc
      exact ih hc
    · rw [if_neg hp] at hc
      simp only [List.head?_cons, Option.some.injEq] at hc
      subst hc
      exact Bool.eq_false_iff.mpr hp

lemma dropWhile_eq_self_of_head {l : Str}
    (h : ∀ c, l.head? = some c → p c = false) : l.dropWhile p = l := by
  cases l with
  | nil => rfl
  | cons a t =>
    rw [List.dropWhile_cons, if_neg]
    simp [h a rfl]

lemma hasAdjPair_cons_false {c : Char} {t : Str} (hc : p c = false) :
    hasAdjPair p (c :: t) = hasAdjPair p t := by
  cases t with
  | nil => simp [hasAdjPair]
  | cons d u => simp [hasAdjPair, hc]

lemma noAdj_tail {l : Str} (h : hasAdjPair p l = false) :
    hasAdjPair p l.tail = false := by
  cases l with
  | nil => rfl
  | cons a t =>
    cases t with
    | nil => rfl
    | cons d u =>
      simp only [hasAdjPair, Bool.or_eq_false_iff] at h
      exact h.2

lemma noAdj_dropWhile {l : Str} (h : hasAdjPair p l = false) :
    hasAdjPair p (l.dropWhile p) = false := by
  induction l with
  | nil => rfl
  | cons a t ih =>
    rw [List.dropWhile_cons]
    by_cases hp : p a = true
    · rw [if_pos hp]
      exact ih (noAdj_tail h)
    · rw [if_neg hp]
      exact h

lemma noAdj_take {l : Str} (h : hasAdjPair p l = false) (n : ℕ) :
    hasAdjPair p (l.take n) = false := by
  induction l generalizing n with
  | nil => simp [hasAdjPair]
  | cons a t ih =>
    cases n with
    | zero => rfl
    | succ m =>
      rw [List.take_succ_cons]
      cases t with
      | nil =>
        cases m <;> rfl
      | cons d u =>
        simp only [hasAdjPair, Bool.or_eq_false_iff] at h
        cases m with
        | zero => rfl
        | succ k =>
          have ht := ih h.2 (k + 1)
          rw [List.take_succ_cons] at ht
          simp only [hasAdjPair, Bool.or_eq_false_iff]
          exact ⟨h.1, ht⟩

lemma noAdj_of_front {l₁ l₂ : Str} (hp : l₁ <+: l₂)
    (h : hasAdjPair p l₂ = false) : hasAdjPair p l₁ = false := by
  rw [List.prefix_iff_eq_take.mp hp]
  exact noAdj_take h _

lemma head?_of_front {l₁ l₂ : Str} {c : Char} (hp : l₁ <+: l₂)
    (h : l₁.head? = some c) : l₂.head? = some c := by
  obtain ⟨t, rfl⟩ := hp
  cases l₁ with
  | nil => simp at h
  | cons a u => simpa using h

lemma mem_collapseRunsAux {c : Char} (hc : p c = false) :
    ∀ (l : Str) (b : Bool), c ∈ l → c ∈ collapseRunsAux p r b l := by
  intro l
  induction l with
  | nil => intro b h; simp at h
  | cons a t ih =>
    intro b hm
    rcases List.mem_cons.mp hm with rfl | ht
    · simp only [collapseRunsAux, hc]
      simp
    · simp only [collapseRunsAux]
      by_cases hp : p a = true
      · simp only [hp, if_true]
        cases b
        · simp only [Bool.false_eq_true, if_false]
          exact List.mem_cons_of_mem _ (ih true ht)
        · simp only [if_true]
          exact ih true ht
      · simp only [hp, Bool.false_eq_true, if_false]
        exact List.mem_cons_of_mem _ (ih false ht)

lemma all_collapseRunsAux {q : Char → Bool} {l : Str}
    (hq : ∀ c ∈ l, q c = true) (hr : q r = true) :
    ∀ b, ∀ c ∈ collapseRunsAux p r b l, q c = true := by
  induction l with
  | nil => intro b c h; simp [collapseRunsAux] at h
  | cons a t ih =>
    intro b c h
    have hq' : ∀ c ∈ t, q c = true := fun x hx => hq x (List.mem_cons_of_mem _ hx)
    simp only [collapseRunsAux] at h
    by_cases hp : p a = true
    · simp only [hp, if_true] at h
      cases b
      · simp only [Bool.false_eq_true, if_false] at h
        rcases List.mem_cons.mp h with rfl | h'
        · exact hr
        · exact ih hq' true c h'
      · simp only [if_true] at h
        exact ih hq' true c h
    · simp only [hp, Bool.false_eq_true, if_false] at h
      rcases List.mem_cons.mp h with rfl | h'
      · exact hq c (List.mem_cons_self _ _)
      · exact ih hq' false c h'

lemma head?_collapseRunsAux_true {c : Char} {l : Str}
    (h : (collapseRunsAux p r true l).head? = some c) : p c = false := by
  induction l with
  | nil => simp [collapseRunsAux] at h
  | cons a t ih =>
    simp only [collapseRunsAux] at h
    by_cases hp : p a = true
    · simp only [hp, if_true] at h
      exact ih h
    · simp only [hp, Bool.false_eq_true, if_false, List.head?_cons,
        Option.some.injEq] at h
      subst h
      exact Bool.eq_false_iff.mpr hp

lemma noAdj_collapseRunsAux {l : Str} :
    ∀ b, hasAdjPair p (collapseRunsAux p r b l) = false := by
  induction l with
  | nil => intro b; rfl
  | cons a t ih =>
    intro b
    simp only [collapseRunsAux]
    by_cases hp : p a = true
    · simp only [hp, if_true]
      cases b
      · simp only [Bool.false_eq_true, if_false]
        cases hout : collapseRunsAux p r true t with
        | nil => rfl
        | cons x u =>
          have hx : p x = false := head?_collapseRunsAux_true (by rw [hout]; rfl)
          simp only [hasAdjPair, hx, Bool.and_false, Bool.false_or]
          have := ih true
          rwa [hout] at this
      · simp only [if_true]
        exact ih true
    · simp only [hp, Bool.false_eq_true, if_false]
      rw [hasAdjPair_cons_false (Bool.eq_false_iff.mpr hp)]
      exact ih false

lemma collapseRunsAux_eq_self_of_none {l : Str}
    (h : ∀ c ∈ l, p c = false) : ∀ b, collapseRunsAux p r b l = l := by
  induction l with
  | nil => intro b; rfl
  | cons a t ih =>
    intro b
    simp only [collapseRunsAux, h a (List.mem_cons_self _ _), Bool.false_eq_true,
      if_false]
    rw [ih (fun c hc => h c (List.mem_cons_of_mem _ hc)) false]

lemma collapseRunsAux_eq_self {l : Str}
    (hadj : hasAdjPair p l = false) (hpr : ∀ c ∈ l, p c = true → c = r) :
    ∀ b, (∀ c, l.head? = some c → p c = true → b = false) →
      collapseRunsAux p r b l = l := by
  induction l with
  | nil => intro b _; rfl
  | cons a t ih =>
    intro b hb
    simp only [collapseRunsAux]
    by_cases hp : p a = true
    · rw [hb a rfl hp]
      simp only [hp, if_true, Bool.false_eq_true, if_false]
      rw [hpr a (List.mem_cons_self _ _) hp]
      congr 1
      refine ih (noAdj_tail hadj)
        (fun c hc hpc => hpr c (List.mem_cons_of_mem _ hc) hpc) true ?_
      intro c hc hpc
      exfalso
      cases t with
      | nil => simp at hc
      | cons d u =>
        simp only [List.head?_cons, Option.some.injEq] at hc
        subst hc
        simp [hasAdjPair, hp, hpc] at hadj
    · simp only [hp, Bool.false_eq_true, if_false]
      congr 1
      exact ih (noAdj_tail hadj)
        (fun c hc hpc => hpr c (List.mem_cons_of_mem _ hc) hpc) false
        (fun _ _ _ => rfl)

end ListFacts

/-! ### Strip facts -/

section StripFacts

variable {p : Char → Bool}

lemma rstripP_leading (l : Str) : rstripP p l <+: l := by
  have h := List.dropWhile_suffix (l := l.reverse) p
  have h2 := List.reverse_prefix.mpr h
  rwa [List.reverse_reverse] at h2

lemma getLast?_rstripP_not {c : Char} {l : Str}
    (hc : (rstripP p l).getLast? = some c) : p c = false := by
  rw [rstripP, List.getLast?_reverse] at hc
  exact head?_dropWhile_not hc

lemma rstripP_eq_self {l : Str} (h : ∀ c, l.getLast? = some c → p c = false) :
    rstripP p l = l := by
  have hd : l.reverse.dropWhile p = l.reverse := by
    apply dropWhile_eq_self_of_head
    intro c hc
    rw [List.head?_reverse] at hc
    exact h c hc
  rw [rstripP, hd, List.reverse_reverse]

lemma mem_rstripP {c : Char} {l : Str} (hm : c ∈ l) (hc : p c = false) :
    c ∈ rstripP p l := by
  rw [rstripP, List.mem_reverse]
  exact mem_dropWhile_of_not (List.mem_reverse.mpr hm) hc

lemma mem_stripP {c : Char} {l : Str} (hm : c ∈ l) (hc : p c = false) :
    c ∈ stripP p l :=
  mem_rstripP (mem_dropWhile_of_not hm hc) hc

lemma head?_stripP_not {c : Char} {l : Str}
    (hc : (stripP p l).head? = some c) : p c = false :=
  head?_dropWhile_not (head?_of_front (rstripP_leading (lstripP p l)) hc)

lemma getLast?_stripP_not {c : Char} {l : Str}
    (hc : (stripP p l).getLast? = some c) : p c = false :=
  getLast?_rstripP_not hc

lemma stripP_subset {l : Str} : stripP p l ⊆ l := fun c hc =>
  (List.dropWhile_suffix p).subset ((rstripP_leading (lstripP p l)).subset hc)

lemma noAdj_stripP {l : Str} (h : hasAdjPair p l = false) :
    hasAdjPair p (stripP p l) = false :=
  noAdj_of_front (rstripP_leading _) (noAdj_dropWhile h)

lemma stripP_eq_self {l : Str} (hh : ∀ c, l.head? = some c → p c = false)
    (hl : ∀ c, l.getLast? = some c → p c = false) : stripP p l = l := by
  rw [stripP, lstripP, dropWhile_eq_self_of_head hh, rstripP_eq_self hl]

lemma mem_of_head? {c : Char} {l : Str} (h : l.head? = some c) : c ∈ l := by
  cases l with
  | nil => simp at h
  | cons a t =>
    simp only [List.head?_cons, Option.some.injEq] at h
    subst h
    exact List.mem_cons_self _ _

lemma mem_of_getLast? {c : Char} {l : Str} (h : l.getLast? = some c) : c ∈ l := by
  rw [List.getLast?_eq_head?_reverse] at h
  exact List.mem_reverse.mp (mem_of_head? h)

end StripFacts

/-! ### The normalizer produces canonical slugs -/

lemma normalize_eq_normTail (name : Str) :
    normalize_skill_name name =
      normTail ((collapseRuns isWsOrUnderscore '-' (name.map pyLower)).filter
        isSlugChar) := rfl

lemma canon_normTail {m : Str} (hall : ∀ c ∈ m, isSlugChar c = true) :
    canonProps (normTail m) := by
  have hyph : isSlugChar '-' = true := by decide
  have h4all : ∀ c ∈ collapseRuns (fun c => c = '-') '-' m, isSlugChar c = true :=
    all_collapseRunsAux hall hyph false
  have h4adj :
      hasAdjPair (fun c => decide (c = '-'))
        (collapseRuns (fun c => c = '-') '-' m) = false :=
    noAdj_collapseRunsAux false
  have h5all :
      ∀ c ∈ stripP (fun c => c = '-') (collapseRuns (fun c => c = '-') '-' m),
        isSlugChar c = true :=
    fun c hc => h4all c (stripP_subset hc)
  have h5adj := noAdj_stripP h4adj
  have h5head :
      ∀ c, (stripP (fun c => c = '-')
          (collapseRuns (fun c => c = '-') '-' m)).head? = some c →
        isLowerAlnum c = true := by
    intro c hc
    exact isLowerAlnum_of_slug_not_hyphen (h5all c (mem_of_head? hc))
      (decide_eq_false_iff_not.mp (head?_stripP_not hc))
  have h5last :
      ∀ c, (stripP (fun c => c = '-')
          (collapseRuns (fun c => c = '-') '-' m)).getLast? = some c →
        isLowerAlnum c = true := by
    intro c hc
    exact isLowerAlnum_of_slug_not_hyphen (h5all c (mem_of_getLast? hc))
      (decide_eq_false_iff_not.mp (getLast?_stripP_not hc))
  rw [normTail]
  by_cases hlen :
      (stripP (fun c => c = '-') (collapseRuns (fun c => c = '-') '-' m)).length
        > 64
  · rw [if_pos hlen]
    refine ⟨?_, ?_, ?_, ?_, ?_⟩
    · intro c hc
      exact h5all c (List.take_subset _ _ ((rstripP_leading _).subset hc))
    · exact noAdj_of_front (rstripP_leading _) (noAdj_take h5adj 64)
    · intro c hc
      have h1 := head?_of_front (rstripP_leading _) hc
      rw [List.head?_take] at h1
      simp only [if_neg (by omega : ¬ (64 : ℕ) = 0)] at h1
      exact h5head c h1
    · intro c hc
      refine isLowerAlnum_of_slug_not_hyphen ?_
        (decide_eq_false_iff_not.mp (getLast?_rstripP_not hc))
      exact h5all c (List.take_subset _ _ ((rstripP_leading _).subset
        (mem_of_getLast? hc)))
    · refine le_trans (rstripP_leading _).length_le ?_
      rw [List.length_take]
      exact min_le_left _ _
  · rw [if_neg hlen]
    exact ⟨h5all, h5adj, h5head, h5last, by omega⟩

lemma normalize_canon (name : Str) : canonProps (normalize_skill_name name) := by
  rw [normalize_eq_normTail]
  exact canon_normTail (fun c hc => (List.mem_filter.mp hc).2)

lemma canon_grammar {s : Str} (h : canonProps s) (hne : s ≠ []) :
    strictSlugGrammar s = true ∧ validate_skill_name s = true := by
  obtain ⟨hall, hadj, hhead, hlast, hlen⟩ := h
  cases s with
  | nil => exact absurd rfl hne
  | cons c rest =>
    have hc : isLowerAlnum c = true := hhead c rfl
    cases hL : (c :: rest).getLast? with
    | none => exact absurd (List.getLast?_eq_none.mp hL) (by simp)
    | some d =>
      have hd : isLowerAlnum d = true := hlast d hL
      have hcore : matchesSlugCore (c :: rest) = true := by
        cases rest with
        | nil => simpa [matchesSlugCore] using hc
        | cons e u =>
          rw [List.getLast?_cons_cons] at hL
          have hdl : (e :: u).dropLast.all isSlugChar = true :=
            List.all_eq_true.mpr fun x hx =>
              hall x (List.mem_cons_of_mem _ ((List.dropLast_sublist _).subset hx))
          have hu : u.length ≤ 62 := by
            simp only [List.length_cons] at hlen
            omega
          simp [matchesSlugCore, hc, hL, hd, hdl, hu]
      refine ⟨?_, ?_⟩
      · have hL' : (match (c :: rest).getLast? with
            | some x => isLowerAlnum x
            | none => false) = true := by
          rw [hL]
          exact hd
        simp only [List.length_cons] at hlen
        simp [strictSlugGrammar, hc, hL', hadj, List.all_eq_true.mpr hall]
        omega
      · simp only [List.length_cons] at hlen
        simp [validate_skill_name, SKILL_NAME_PATTERN_match, hcore]
        omega

lemma normalize_eq_self_of_canon {s : Str} (h : canonProps s) :
    normalize_skill_name s = s := by
  obtain ⟨hall, hadj, hhead, hlast, hlen⟩ := h
  have h1 : s.map pyLower = s := by
    have hid : ∀ c ∈ s, pyLower c = c := fun c hc => pyLower_of_slugChar (hall c hc)
    calc s.map pyLower = s.map id := List.map_congr_left hid
    _ = s := List.map_id s
  have h2 : collapseRuns isWsOrUnderscore '-' s = s :=
    collapseRunsAux_eq_self_of_none
      (fun c hc => not_ws_of_slugChar (hall c hc)) false
  have h3 : s.filter isSlugChar = s := List.filter_eq_self.mpr hall
  have h4 : collapseRuns (fun c => c = '-') '-' s = s :=
    collapseRunsAux_eq_self hadj (fun c _ hpc => of_decide_eq_true hpc) false
      (fun _ _ _ => rfl)
  have hq5h : ∀ c, s.head? = some c → decide (c = '-') = false := fun c hc =>
    decide_eq_false_iff_not.mpr (not_hyphen_of_lowerAlnum (hhead c hc))
  have hq5l : ∀ c, s.getLast? = some c → decide (c = '-') = false := fun c hc =>
    decide_eq_false_iff_not.mpr (not_hyphen_of_lowerAlnum (hlast c hc))
  have h5 : stripP (fun c => c = '-') s = s := stripP_eq_self hq5h hq5l
  rw [normalize_eq_normTail, h1, h2, h3, normTail, h4, h5, if_neg (by omega)]

lemma normalize_ne_nil {name : Str} (hx : ∃ c ∈ name, isAsciiAlnum c = true) :
    normalize_skill_name name ≠ [] := by
  obtain ⟨c, hm, hc⟩ := hx
  have hca : isLowerAlnum (pyLower c) = true := isLowerAlnum_pyLower hc
  have hcs : isSlugChar (pyLower c) = true := isSlugChar_iff.mpr (Or.inl hca)
  have hnh : (decide (pyLower c = '-')) = false :=
    decide_eq_false_iff_not.mpr (not_hyphen_of_lowerAlnum hca)
  have h1 : pyLower c ∈ name.map pyLower := List.mem_map_of_mem _ hm
  have h2 : pyLower c ∈ collapseRuns isWsOrUnderscore '-' (name.map pyLower) :=
    mem_collapseRunsAux (not_ws_of_slugChar hcs) _ false h1
  have h3 : pyLower c ∈
      (collapseRuns isWsOrUnderscore '-' (name.map pyLower)).filter isSlugChar :=
    List.mem_filter.mpr ⟨h2, hcs⟩
  have h4 : pyLower c ∈ collapseRuns (fun x => x = '-') '-'
      ((collapseRuns isWsOrUnderscore '-' (name.map pyLower)).filter isSlugChar) :=
    mem_collapseRunsAux hnh _ false h3
  have h5 : pyLower c ∈ stripP (fun x => x = '-')
      (collapseRuns (fun x => x = '-') '-'
        ((collapseRuns isWsOrUnderscore '-'
          (name.map pyLower)).filter isSlugChar)) :=
    mem_stripP h4 hnh
  rw [normalize_eq_normTail, normTail]
  by_cases hlen : (stripP (fun x => x = '-')
      (collapseRuns (fun x => x = '-') '-'
        ((collapseRuns isWsOrUnderscore '-'
          (name.map pyLower)).filter isSlugChar))).length > 64
  · rw [if_pos hlen]
    cases hcons : stripP (fun x => x = '-')
        (collapseRuns (fun x => x = '-') '-'
          ((collapseRuns isWsOrUnderscore '-'
            (name.map pyLower)).filter isSlugChar)) with
    | nil => rw [hcons] at h5; simp at h5
    | cons h0 t0 =>
      have hh0 : (decide (h0 = '-')) = false :=
        head?_stripP_not (by rw [hcons]; rfl)
      have htake : h0 ∈ (h0 :: t0).take 64 := by
        rw [List.take_succ_cons]
        exact List.mem_cons_self _ _
      exact List.ne_nil_of_mem (mem_rstripP htake hh0)
  · rw [if_neg hlen]
    exact List.ne_nil_of_mem h5

/-- C9: for every input string whatsoever, `normalize_skill_name` returns
either the empty string or a slug satisfying the strict slug grammar
(length 1 to 64, lowercase alphanumeric boundary characters, interior in
`[a-z0-9-]`, no consecutive hyphens): the normalizer never produces a
non-empty invalid slug. -/
theorem C9_normalizer_never_invalid (name : Str) :
    normalize_skill_name name = [] ∨
      strictSlugGrammar (normalize_skill_name name) = true := by
  by_cases h : normalize_skill_name name = []
  · exact Or.inl h
  · exact Or.inr (canon_grammar (normalize_canon name) h).1

/-- C3: `normalize_skill_name` is idempotent, and whenever the input contains
at least one (ASCII) alphanumeric character, the normalized name passes
`validate_skill_name`. -/
theorem C3_normalize_idempotent_validate :
    (∀ name : Str,
      normalize_skill_name (normalize_skill_name name) =
        normalize_skill_name name) ∧
    (∀ name : Str, (∃ c ∈ name, isAsciiAlnum c = true) →
      validate_skill_name (normalize_skill_name name) = true) := by
  constructor
  · intro name
    exact normalize_eq_self_of_canon (normalize_canon name)
  · intro name hx
    exact (canon_grammar (normalize_canon name) (normalize_ne_nil hx)).2

/-! ### C8: the search score function -/

/-- C8: `score d = 1 / (1 + d)` is strictly decreasing on nonnegative
distances, and `score d` lies in the half-open interval `(0, 1]` for every
`d ≥ 0`. -/
theorem C8_score_strictly_decreasing_bounded :
    (∀ d1 d2 : ℚ, 0 ≤ d1 → d1 < d2 → score d2 < score d1) ∧
    (∀ d : ℚ, 0 ≤ d → 0 < score d ∧ score d ≤ 1) := by
  constructor
  · intro d1 d2 h0 hlt
    have h1 : (0:ℚ) < 1 + d1 := by linarith
    have h2 : (0:ℚ) < 1 + d2 := by linarith
    rw [score, score, div_lt_div_iff h2 h1]
    linarith
  · intro d h0
    have h1 : (0:ℚ) < 1 + d := by linarith
    exact ⟨one_div_pos.mpr h1, by rw [score, div_le_one h1]; linarith⟩

/-- Witness for C8 at the concrete distances 0, 1 and 2. -/
theorem C8_witness : score 1 < score 0 ∧ 0 < score 2 ∧ score 2 ≤ 1 :=
  ⟨C8_score_strictly_decreasing_bounded.1 0 1 le_rfl (by norm_num),
   (C8_score_strictly_decreasing_bounded.2 2 (by norm_num)).1,
   (C8_score_strictly_decreasing_bounded.2 2 (by norm_num)).2⟩

/-! ### C7: trusted-origin fan-out -/

lemma length_filterMap_eq_length_filter {α β : Type} (g : α → Option β)
    (l : List α) :
    (l.filterMap g).length = (l.filter (fun a => (g a).isSome)).length := by
  induction l with
  | nil => rfl
  | cons a t ih =>
    cases hg : g a <;> simp [List.filterMap_cons, List.filter_cons, hg, ih]

/-- C7: `discover_from_all_trusted` returns exactly the `DiscoveryResult`s
of the origins whose `discover` succeeded: every success contributes, every
returned result comes from some successful origin, and the number of
results equals the number of successful origins.  The function is total, so
a failing origin never makes the aggregate raise. -/
theorem C7_trusted_fanout_isolation
    (discoverOracle : Str → DiscoveryService.GatherItem) (trusted : List Str) :
    (∀ o ∈ trusted, ∀ d, discoverOracle o = .result d →
      d ∈ DiscoveryService.discover_from_all_trusted discoverOracle trusted) ∧
    (∀ d ∈ DiscoveryService.discover_from_all_trusted discoverOracle trusted,
      ∃ o ∈ trusted, discoverOracle o = .result d) ∧
    (DiscoveryService.discover_from_all_trusted discoverOracle trusted).length
      = (trusted.filter (fun o =>
          match discoverOracle o with
          | .result _ => true
          | .exn _ => false)).length := by
  have hrw : DiscoveryService.discover_from_all_trusted discoverOracle trusted
      = trusted.filterMap (fun o =>
          match discoverOracle o with
          | .result d => some d
          | .exn _ => none) := by
    rw [DiscoveryService.discover_from_all_trusted, List.filterMap_map]
    rfl
  refine ⟨?_, ?_, ?_⟩
  · intro o ho d hd
    rw [hrw]
    exact List.mem_filterMap.mpr ⟨o, ho, by rw [hd]⟩
  · intro d hd
    rw [hrw] at hd
    obtain ⟨o, ho, heq⟩ := List.mem_filterMap.mp hd
    refine ⟨o, ho, ?_⟩
    cases ho2 : discoverOracle o with
    | result r =>
      rw [ho2] at heq
      simp only [Option.some.injEq] at heq
      rw [heq]
    | exn m =>
      rw [ho2] at heq
      simp at heq
  · rw [hrw, length_filterMap_eq_length_filter]
    congr 1
    apply List.filter_congr
    intro o _
    cases h3 : discoverOracle o <;> simp

/-- A concrete fan-out for the C7 witness: one reachable and one failing
origin. -/
def exDiscoveryResult : DiscoveryResult :=
  { origin := ("https://good.example").data, skills := [],
    fetched_at := ("2024-01-01T00:00:00Z").data }

def exDiscoverOracle (o : Str) : DiscoveryService.GatherItem :=
  if o = ("https://good.example").data then .result exDiscoveryResult
  else .exn ("boom").data

/-- Witness for C7 with one succeeding and one failing trusted origin. -/
theorem C7_witness :
    exDiscoveryResult ∈ DiscoveryService.discover_from_all_trusted
      exDiscoverOracle
      [("https://good.example").data, ("https://down.example").data] ∧
    (DiscoveryService.discover_from_all_trusted exDiscoverOracle
      [("https://good.example").data, ("https://down.example").data]).length
      = ([("https://good.example").data, ("https://down.example").data].filter
          (fun o =>
            match exDiscoverOracle o with
            | .result _ => true
            | .exn _ => false)).length :=
  ⟨(C7_trusted_fanout_isolation exDiscoverOracle _).1 _
      (List.mem_cons_self _ _) exDiscoveryResult (by decide),
   (C7_trusted_fanout_isolation exDiscoverOracle _).2.2⟩

/-! ### C4: partial-failure isolation in fetch_all_resources -/

lemma dictInsert_fresh {k v : Str} {d : List (Str × Str)}
    (h : ∀ kv ∈ d, kv.1 ≠ k) : dictInsert k v d = d ++ [(k, v)] := by
  rw [dictInsert, if_neg]
  simp only [List.any_eq_true, beq_iff_eq, not_exists, not_and]
  intro kv hkv
  exact h kv hkv

lemma fetch_all_foldl_eq (fetchOracle : Str → Option Str) :
    ∀ (files : List Str) (d : List (Str × Str)), files.Nodup →
      (∀ f ∈ files, ∀ kv ∈ d, kv.1 ≠ f) →
      (files.map (fun f => (f, fetchOracle f))).foldl DiscoveryClient.fetchStep d
      = d ++ files.filterMap (fun f => (fetchOracle f).map (fun c => (f, c)))
  | [], d, _, _ => by simp
  | f :: rest, d, hnd, hd => by
    obtain ⟨hfr, hndr⟩ := List.nodup_cons.mp hnd
    simp only [List.map_cons, List.foldl_cons]
    cases hf : fetchOracle f with
    | none =>
      have hstep : DiscoveryClient.fetchStep d (f, none) = d := rfl
      rw [hstep, fetch_all_foldl_eq fetchOracle rest d hndr
        (fun g hg kv hkv => hd g (List.mem_cons_of_mem _ hg) kv hkv)]
      simp [List.filterMap_cons, hf]
    | some c =>
      have hstep : DiscoveryClient.fetchStep d (f, some c)
          = d ++ [(f, c)] :=
        dictInsert_fresh (hd f (List.mem_cons_self _ _))
      rw [hstep, fetch_all_foldl_eq fetchOracle rest (d ++ [(f, c)]) hndr ?_]
      · simp [List.filterMap_cons, hf]
      · intro g hg kv hkv
        rcases List.mem_append.mp hkv with hkv | hkv
        · exact hd g (List.mem_cons_of_mem _ hg) kv hkv
        · simp only [List.mem_singleton] at hkv
          subst hkv
          intro hfg
          have hq : f = g := hfg
          exact hfr (hq ▸ hg)

lemma fetch_all_resources_eq_filterMap (fetchOracle : Str → Option Str)
    (files : List Str) (hnd : files.Nodup) :
    DiscoveryClient.fetch_all_resources fetchOracle files
      = files.filterMap (fun f => (fetchOracle f).map (fun c => (f, c))) := by
  have h := fetch_all_foldl_eq fetchOracle files [] hnd (by simp)
  simpa [DiscoveryClient.fetch_all_resources] using h

lemma filter_isSome_isNone_length (fetchOracle : Str → Option Str)
    (files : List Str) :
    (files.filter (fun f => (fetchOracle f).isSome)).length
      + (files.filter (fun f => (fetchOracle f).isNone)).length
      = files.length := by
  induction files with
  | nil => rfl
  | cons f rest ih =>
    cases hf : fetchOracle f <;> simp [List.filter_cons, hf] <;> omega

lemma dictGet?_filterMap_none (fetchOracle : Str → Option Str) {f : Str}
    {files : List Str} (hf : f ∉ files) :
    dictGet? (files.filterMap (fun g => (fetchOracle g).map (fun c => (g, c))))
      f = none := by
  have hn : (files.filterMap
      (fun g => (fetchOracle g).map (fun c => (g, c)))).find?
        (fun kv => kv.1 == f) = none := by
    rw [List.find?_eq_none]
    intro kv hkv
    obtain ⟨g, hg, heq⟩ := List.mem_filterMap.mp hkv
    cases ho : fetchOracle g with
    | none =>
      rw [ho] at heq
      simp at heq
    | some c =>
      rw [ho] at heq
      simp only [Option.map_some', Option.some.injEq] at heq
      subst heq
      simp only [beq_iff_eq]
      intro h
      exact hf (h ▸ hg)
  rw [dictGet?, hn]
  rfl

lemma dictGet?_filterMap (fetchOracle : Str → Option Str) :
    ∀ (files : List Str), files.Nodup → ∀ f ∈ files,
      dictGet?
        (files.filterMap (fun g => (fetchOracle g).map (fun c => (g, c)))) f
        = fetchOracle f
  | [], _, f, hf => by simp at hf
  | a :: t, hnd, f, hf => by
    obtain ⟨hat, hndt⟩ := List.nodup_cons.mp hnd
    rcases List.mem_cons.mp hf with rfl | hft
    · cases ha : fetchOracle f with
      | none =>
        simp only [List.filterMap_cons, ha, Option.map_none']
        rw [dictGet?_filterMap_none fetchOracle hat]
      | some c =>
        simp only [List.filterMap_cons, ha, Option.map_some']
        rw [dictGet?, List.find?_cons_of_pos _ (by simp)]
        rfl
    · have hfa : f ≠ a := fun h => hat (h ▸ hft)
      cases ha : fetchOracle a with
      | none =>
        simp only [List.filterMap_cons, ha, Option.map_none']
        exact dictGet?_filterMap fetchOracle t hndt f hft
      | some c =>
        simp only [List.filterMap_cons, ha, Option.map_some']
        rw [dictGet?, List.find?_cons_of_neg _ (by simp [hfa.symm])]
        exact dictGet?_filterMap fetchOracle t hndt f hft

/-- C4: for distinct resource paths with `M < N` failures,
`fetch_all_resources` returns a map with exactly `N − M` entries, one entry
per successful path keyed by that path, and (being a total function) raises
no error regardless of which fetches fail. -/
theorem C4_fetch_all_partial_isolation (fetchOracle : Str → Option Str)
    (files : List Str) (hnd : files.Nodup)
    (hM : (files.filter (fun f => (fetchOracle f).isNone)).length
      < files.length) :
    (DiscoveryClient.fetch_all_resources fetchOracle files).length
      = files.length
        - (files.filter (fun f => (fetchOracle f).isNone)).length ∧
    ∀ f ∈ files,
      dictGet? (DiscoveryClient.fetch_all_resources fetchOracle files) f
        = fetchOracle f := by
  constructor
  · rw [fetch_all_resources_eq_filterMap fetchOracle files hnd,
      length_filterMap_eq_length_filter]
    have hcong : files.filter
        (fun a => ((fetchOracle a).map (fun c => (a, c))).isSome)
        = files.filter (fun a => (fetchOracle a).isSome) :=
      List.filter_congr (fun a _ => by cases h : fetchOracle a <;> simp [h])
    rw [hcong]
    have := filter_isSome_isNone_length fetchOracle files
    omega
  · intro f hf
    rw [fetch_all_resources_eq_filterMap fetchOracle files hnd]
    exact dictGet?_filterMap fetchOracle files hnd f hf

/-- A concrete two-path fetch for the C4 witness: one path succeeds, one
fails. -/
def exFetchOracle (p : Str) : Option Str :=
  if p = ("SKILL.md").data then some ("# doc").data else none

def exFiles : List Str := [("SKILL.md").data, ("extra.json").data]

/-- Witness for C4: two distinct paths, one failure, so exactly one entry. -/
theorem C4_witness :
    (DiscoveryClient.fetch_all_resources exFetchOracle exFiles).length
      = exFiles.length
        - (exFiles.filter (fun f => (exFetchOracle f).isNone)).length ∧
    dictGet? (DiscoveryClient.fetch_all_resources exFetchOracle exFiles)
      ("SKILL.md").data = exFetchOracle ("SKILL.md").data :=
  ⟨(C4_fetch_all_partial_isolation exFetchOracle exFiles (by decide)
      (by decide)).1,
   (C4_fetch_all_partial_isolation exFetchOracle exFiles (by decide)
      (by decide)).2 _ (List.mem_cons_self _ _)⟩

/-! ### C10: corrupt storage behaves as an empty registry -/

/-- C10: when the storage file holds invalid JSON, `_load` yields `[]`, so
every read operation (`list_skills`, `get_skill`, `get_skill_by_slug`,
`search_by_tags`) returns exactly what it returns on an empty registry, and
none of them raises. -/
theorem C10_corrupt_storage_reads_empty (raw : Str) (genId genTime : ℕ → Str)
    (sid slug : Str) (tags : List Str) :
    RegistryService.load (.corrupt raw) = [] ∧
    RegistryService.list_skills genId genTime (.corrupt raw) = some [] ∧
    RegistryService.list_skills genId genTime (.corrupt raw)
      = RegistryService.list_skills genId genTime (.json []) ∧
    RegistryService.get_skill genId genTime (.corrupt raw) sid = some none ∧
    RegistryService.get_skill genId genTime (.corrupt raw) sid
      = RegistryService.get_skill genId genTime (.json []) sid ∧
    RegistryService.get_skill_by_slug genId genTime (.corrupt raw) slug
      = some none ∧
    RegistryService.get_skill_by_slug genId genTime (.corrupt raw) slug
      = RegistryService.get_skill_by_slug genId genTime (.json []) slug ∧
    RegistryService.search_by_tags genId genTime (.corrupt raw) tags
      = some [] ∧
    RegistryService.search_by_tags genId genTime (.corrupt raw) tags
      = RegistryService.search_by_tags genId genTime (.json []) tags :=
  ⟨rfl, rfl, rfl, rfl, rfl, rfl, rfl, rfl, rfl⟩

/-! ### Registry upsert machinery (C1, C6) -/

namespace RegistryService

lemma ensure_name (r : StoredSkill) : (ensure_skill_fields r).name = r.name :=
  rfl

lemma ensure_description (r : StoredSkill) :
    (ensure_skill_fields r).description = r.description := rfl

lemma ensure_id (r : StoredSkill) : (ensure_skill_fields r).id = r.id := rfl

lemma ensure_created_at (r : StoredSkill) :
    (ensure_skill_fields r).created_at = r.created_at := rfl

lemma ensure_slug (r : StoredSkill) :
    (ensure_skill_fields r).slug =
      if (r.slug.getD []).isEmpty then
        some (normalize_skill_name (r.name.getD [])) else r.slug := rfl

lemma ensure_slug_of_some {r : StoredSkill} {s : Str} (hr : r.slug = some s)
    (hs : s ≠ []) : (ensure_skill_fields r).slug = some s := by
  rw [ensure_slug, hr, if_neg (by simpa using hs)]

/-- A record with every defaulted key present and a non-empty slug is a
fixed point of the back-fill. -/
lemma ensure_eq_self_of_populated {r : StoredSkill} {s : Str}
    (hslug : r.slug = some s) (hs : s ≠ [])
    (hfiles : r.files.isSome) (hver : r.version.isSome)
    (hout : r.output_schema.isSome) (hauth : r.author.isSome)
    (hdoc : r.documentation.isSome) (hex : r.examples.isSome)
    (hupd : r.updated_at.isSome) : ensure_skill_fields r = r := by
  have hif : ∀ {α : Type} (x : Option α) (dflt : Option α), x.isSome = true →
      (if x.isNone then dflt else x) = x := by
    intro α x dflt hx
    cases x
    · simp at hx
    · simp
  have hse : (r.slug.getD []).isEmpty = false := by
    rw [hslug]
    simpa using hs
  ext1 <;>
    simp only [ensure_skill_fields, hse, Bool.false_eq_true, if_false] <;>
    first
      | rfl
      | exact hif _ _ hfiles
      | exact hif _ _ hver
      | exact hif _ _ hout
      | exact hif _ _ hauth
      | exact hif _ _ hdoc
      | exact hif _ _ hex
      | exact hif _ _ hupd

/-- The back-fill is idempotent. -/
lemma ensure_idem (r : StoredSkill) :
    ensure_skill_fields (ensure_skill_fields r) = ensure_skill_fields r := by
  ext1 <;>
    simp only [ensure_skill_fields] <;>
    rcases r with ⟨n, de, i, o, t, v, a, doc, ex, id0, sl, ca, ua, fi⟩ <;>
    cases sl <;> cases fi <;> cases v <;> cases o <;> cases a <;> cases doc <;>
      cases ex <;> cases ua <;>
    simp <;>
    split <;> simp_all

/-- `model_dump` of a skill with a non-empty slug is a fixed point of the
back-fill. -/
lemma ensure_model_dump (skill : Skill) (h : skill.slug ≠ []) :
    ensure_skill_fields skill.model_dump = skill.model_dump :=
  ensure_eq_self_of_populated (s := skill.slug) rfl h rfl rfl rfl rfl rfl rfl rfl

lemma scanForSlug_no_match {s : Str} :
    ∀ {st : List StoredSkill},
      (∀ r ∈ st, (ensure_skill_fields r).slug ≠ some s) →
      scanForSlug s st = (st.map ensure_skill_fields, none)
  | [], _ => rfl
  | r :: rest, h => by
    rw [scanForSlug, if_neg (h r (List.mem_cons_self _ _)),
      scanForSlug_no_match (fun x hx => h x (List.mem_cons_of_mem _ hx))]
    rfl

lemma scanForSlug_found {s : Str} {d : StoredSkill}
    (hd : (ensure_skill_fields d).slug = some s) :
    ∀ {A : List StoredSkill} (B : List StoredSkill),
      (∀ r ∈ A, (ensure_skill_fields r).slug ≠ some s) →
      scanForSlug s (A ++ d :: B) =
        (A.map ensure_skill_fields ++ ensure_skill_fields d :: B,
          some A.length)
  | [], B, _ => by
    rw [List.nil_append, scanForSlug, if_pos hd]
    rfl
  | a :: A, B, hA => by
    rw [List.cons_append, scanForSlug,
      if_neg (hA a (List.mem_cons_self _ _)),
      scanForSlug_found hd B (fun x hx => hA x (List.mem_cons_of_mem _ hx))]
    rfl

lemma getD_append_cons {α : Type} (A : List α) (d x : α) (B : List α) :
    (A ++ d :: B).getD A.length x = d := by
  induction A with
  | nil => rfl
  | cons a t ih => simpa using ih

lemma set_append_cons {α : Type} (A : List α) (d v : α) (B : List α) :
    (A ++ d :: B).set A.length v = A ++ v :: B := by
  induction A with
  | nil => rfl
  | cons a t ih => simpa using ih

/-- `register_skill` when no stored slug matches: every scanned record is
saved in back-filled form and the dump is appended. -/
lemma register_no_match (skill : Skill) (st : List StoredSkill)
    (h : ∀ r ∈ st, (ensure_skill_fields r).slug ≠ some skill.slug) :
    register_skill skill st =
      (st.map ensure_skill_fields ++ [skill.model_dump], skill.model_dump) := by
  rw [register_skill, scanForSlug_no_match h]

/-- `register_skill` when the first matching slug sits between `A` and `B`:
the scanned prefix is saved back-filled, the match is replaced by the dump
carrying the existing id and created_at, and the suffix is untouched. -/
lemma register_found (skill : Skill) {A : List StoredSkill} {d : StoredSkill}
    (B : List StoredSkill)
    (hA : ∀ r ∈ A, (ensure_skill_fields r).slug ≠ some skill.slug)
    (hd : (ensure_skill_fields d).slug = some skill.slug) :
    register_skill skill (A ++ d :: B) =
      (A.map ensure_skill_fields ++
        { skill.model_dump with
          id := some ((ensure_skill_fields d).id.getD skill.id)
          created_at :=
            some ((ensure_skill_fields d).created_at.getD skill.created_at) }
        :: B,
       { skill.model_dump with
          id := some ((ensure_skill_fields d).id.getD skill.id)
          created_at :=
            some ((ensure_skill_fields d).created_at.getD skill.created_at) }) := by
  rw [register_skill, scanForSlug_found hd B hA]
  have hlen : A.length = (A.map ensure_skill_fields).length := by
    rw [List.length_map]
  simp only []
  rw [hlen, getD_append_cons, set_append_cons]

/-- Splitting a storage list at the first back-filled slug match. -/
lemma scan_split (s : Str) (st : List StoredSkill) :
    (∀ r ∈ st, (ensure_skill_fields r).slug ≠ some s) ∨
    ∃ A d B, st = A ++ d :: B ∧
      (∀ r ∈ A, (ensure_skill_fields r).slug ≠ some s) ∧
      (ensure_skill_fields d).slug = some s := by
  induction st with
  | nil => exact Or.inl (by simp)
  | cons r rest ih =>
    by_cases hm : (ensure_skill_fields r).slug = some s
    · exact Or.inr ⟨[], r, rest, rfl, by simp, hm⟩
    · rcases ih with h | ⟨A, d, B, rfl, hA, hd⟩
      · refine Or.inl ?_
        intro x hx
        rcases List.mem_cons.mp hx with rfl | hx2
        · exact hm
        · exact h x hx2
      · refine Or.inr ⟨r :: A, d, B, rfl, ?_, hd⟩
        intro x hx
        rcases List.mem_cons.mp hx with rfl | hx2
        · exact hm
        · exact hA x hx2

/-- The state and return value of one `register_skill` call: the new storage
is `A ++ d :: B` where `d` is the returned record, a fully populated dump of
the skill (with carried-over id/created_at when a record matched), and every
record of `A` is back-fill-fixed with a different slug. -/
lemma register_shape (skill : Skill) (st : List StoredSkill)
    (hne : skill.slug ≠ []) :
    ∃ A B d, register_skill skill st = (A ++ d :: B, d) ∧
      (∀ r ∈ A, ensure_skill_fields r = r ∧ r.slug ≠ some skill.slug) ∧
      ensure_skill_fields d = d ∧ d.slug = some skill.slug ∧
      d.description = some skill.description ∧
      d.updated_at = some skill.updated_at ∧
      (∃ idv, d.id = some idv) ∧ ∃ cav, d.created_at = some cav := by
  rcases scan_split skill.slug st with h | ⟨A, d0, B, rfl, hA, hd⟩
  · refine ⟨st.map ensure_skill_fields, [], skill.model_dump,
      register_no_match skill st h, ?_, ensure_model_dump skill hne, rfl, rfl,
      rfl, ⟨skill.id, rfl⟩, ⟨skill.created_at, rfl⟩⟩
    intro r hr
    obtain ⟨x, hx, rfl⟩ := List.mem_map.mp hr
    exact ⟨ensure_idem x, h x hx⟩
  · refine ⟨A.map ensure_skill_fields, B, _, register_found skill B hA hd,
      ?_, ?_, rfl, rfl, rfl, ⟨_, rfl⟩, ⟨_, rfl⟩⟩
    · intro r hr
      obtain ⟨x, hx, rfl⟩ := List.mem_map.mp hr
      exact ⟨ensure_idem x, hA x hx⟩
    · exact ensure_eq_self_of_populated (s := skill.slug) rfl hne rfl rfl rfl
        rfl rfl rfl rfl

lemma findStoredBySlug_append {s : Str} {d : StoredSkill}
    (hd : (ensure_skill_fields d).slug = some s) :
    ∀ {A : List StoredSkill} (B : List StoredSkill),
      (∀ r ∈ A, (ensure_skill_fields r).slug ≠ some s) →
      findStoredBySlug s (A ++ d :: B) = some d
  | [], B, _ => by
    rw [List.nil_append, findStoredBySlug, List.find?_cons_of_pos _ (by
      simp [hd])]
  | a :: A, B, hA => by
    rw [List.cons_append, findStoredBySlug, List.find?_cons_of_neg _ (by
      simp [hA a (List.mem_cons_self _ _)])]
    exact findStoredBySlug_append hd B
      (fun x hx => hA x (List.mem_cons_of_mem _ hx))

end RegistryService

/-- C1: registering the same slug twice with different payloads returns the
same `id` and `created_at` both times; afterwards the stored record under
that slug holds the second description, and its `updated_at` differs from
the first call's stored `updated_at` whenever the two calls carried
different timestamps. -/
theorem C1_upsert_identity (skill1 skill2 : Skill) (st0 : List StoredSkill)
    (hslug : skill2.slug = skill1.slug) (hne : skill1.slug ≠ [])
    (hupd : skill2.updated_at ≠ skill1.updated_at) :
    ((RegistryService.register_skill skill2
        (RegistryService.register_skill skill1 st0).1).2).id
      = ((RegistryService.register_skill skill1 st0).2).id ∧
    ((RegistryService.register_skill skill2
        (RegistryService.register_skill skill1 st0).1).2).created_at
      = ((RegistryService.register_skill skill1 st0).2).created_at ∧
    ∃ r1 r2,
      RegistryService.findStoredBySlug skill1.slug
        (RegistryService.register_skill skill1 st0).1 = some r1 ∧
      RegistryService.findStoredBySlug skill1.slug
        (RegistryService.register_skill skill2
          (RegistryService.register_skill skill1 st0).1).1 = some r2 ∧
      r2.description = some skill2.description ∧
      r2.updated_at ≠ r1.updated_at := by
  obtain ⟨A, B, d, hreg1, hA, hdfix, hdslug, hddesc, hdupd, ⟨idv, hid⟩,
    ⟨cav, hcav⟩⟩ := RegistryService.register_shape skill1 st0 hne
  have hne2 : skill2.slug ≠ [] := by rw [hslug]; exact hne
  have hA2 : ∀ r ∈ A, (RegistryService.ensure_skill_fields r).slug
      ≠ some skill2.slug := by
    intro r hr
    rw [(hA r hr).1, hslug]
    exact (hA r hr).2
  have hd2 : (RegistryService.ensure_skill_fields d).slug = some skill2.slug := by
    rw [hdfix, hdslug, hslug]
  have hreg2 := RegistryService.register_found skill2 B hA2 hd2
  have hAfix : A.map RegistryService.ensure_skill_fields = A := by
    calc A.map RegistryService.ensure_skill_fields = A.map id :=
      List.map_congr_left (fun r hr => (hA r hr).1)
    _ = A := List.map_id A
  rw [hreg1]
  refine ⟨?_, ?_, ?_⟩
  · rw [hreg2]
    simp only [hdfix, hid]
    rfl
  · rw [hreg2]
    simp only [hdfix, hcav]
    rfl
  · refine ⟨d, { skill2.model_dump with
      id := some ((RegistryService.ensure_skill_fields d).id.getD skill2.id)
      created_at := some ((RegistryService.ensure_skill_fields
        d).created_at.getD skill2.created_at) }, ?_, ?_, rfl, ?_⟩
    · exact RegistryService.findStoredBySlug_append (by rw [hdfix, hdslug]) B
        (fun r hr => by rw [(hA r hr).1]; exact (hA r hr).2)
    · rw [hreg2, hAfix]
      refine RegistryService.findStoredBySlug_append ?_ B
        (fun r hr => by
          rw [(hA r hr).1]
          exact (hA r hr).2)
      exact RegistryService.ensure_slug_of_some
        (by show some skill2.slug = some skill1.slug; rw [hslug]) hne
    · rw [hdupd]
      intro h
      exact hupd (Option.some_injective _ h)

/-- A concrete fully populated skill used by the C1 and C6 witnesses. -/
def exSkill (slug descr upd : Str) : Skill :=
  { name := ("Calc").data
    description := descr
    input_schema := []
    output_schema := none
    tags := [("math").data]
    version := ("1.0.0").data
    author := none
    documentation := none
    examples := none
    id := ("id-1").data
    slug := slug
    created_at := ("2024-01-01T00:00:00Z").data
    updated_at := upd
    files := [] }

/-- Witness for C1: registering slug "calc" twice on an empty registry with
descriptions "v1" then "v2" and different timestamps. -/
theorem C1_witness :
    ((RegistryService.register_skill
        (exSkill ("calc").data ("v2").data ("t2").data)
        (RegistryService.register_skill
          (exSkill ("calc").data ("v1").data ("t1").data) []).1).2).id
      = ((RegistryService.register_skill
          (exSkill ("calc").data ("v1").data ("t1").data) []).2).id ∧
    ((RegistryService.register_skill
        (exSkill ("calc").data ("v2").data ("t2").data)
        (RegistryService.register_skill
          (exSkill ("calc").data ("v1").data ("t1").data) []).1).2).created_at
      = ((RegistryService.register_skill
          (exSkill ("calc").data ("v1").data ("t1").data) []).2).created_at :=
  ⟨(C1_upsert_identity (exSkill ("calc").data ("v1").data ("t1").data)
      (exSkill ("calc").data ("v2").data ("t2").data) [] rfl (by decide)
      (by decide)).1,
   (C1_upsert_identity (exSkill ("calc").data ("v1").data ("t1").data)
      (exSkill ("calc").data ("v2").data ("t2").data) [] rfl (by decide)
      (by decide)).2.1⟩

/-! ### C6: the back-fill is persisted by register_skill -/

/-- A legacy stored record: valid slug "legacy" but no `version` key. -/
def legacyRecord : StoredSkill :=
  { name := some ("legacy").data
    description := some ("old").data
    input_schema := some []
    output_schema := none
    tags := some []
    version := none
    author := none
    documentation := none
    examples := none
    id := some ("id0").data
    slug := some ("legacy").data
    created_at := some ("t0").data
    updated_at := some ("t0").data
    files := some [] }

/-- Counterexample to C6: registering a skill with slug "other" rewrites the
stored record with slug "legacy" — its absent `version` key is persisted as
"1.0.0", so a record with a different slug is not byte-for-byte unchanged. -/
theorem C6_counterexample :
    legacyRecord.slug
      ≠ some (exSkill ("other").data ("d").data ("t1").data).slug ∧
    legacyRecord.version = none ∧
    ((RegistryService.register_skill
        (exSkill ("other").data ("d").data ("t1").data)
        [legacyRecord]).1.head?.map StoredSkill.version)
      = some (some ("1.0.0").data) :=
  ⟨by decide, rfl, by decide⟩

/-- C6 amended: the back-fill is idempotent, but it is persisted by
`register_skill` for every record scanned — registering a skill whose slug
matches no stored record saves every stored record in back-filled form
(plus the new dump), rather than leaving other-slug records byte-for-byte
unchanged. -/
theorem C6_backfill_persisted_on_register :
    (∀ (skill : Skill) (st : List StoredSkill),
      (∀ r ∈ st,
        (RegistryService.ensure_skill_fields r).slug ≠ some skill.slug) →
      (RegistryService.register_skill skill st).1
        = st.map RegistryService.ensure_skill_fields ++ [skill.model_dump]) ∧
    ∀ r, RegistryService.ensure_skill_fields
        (RegistryService.ensure_skill_fields r)
      = RegistryService.ensure_skill_fields r :=
  ⟨fun skill st h => by rw [RegistryService.register_no_match skill st h],
   RegistryService.ensure_idem⟩

/-- Witness for the amended C6 on the legacy record. -/
theorem C6_witness :
    (RegistryService.register_skill
        (exSkill ("other").data ("d").data ("t1").data) [legacyRecord]).1
      = [legacyRecord].map RegistryService.ensure_skill_fields
        ++ [(exSkill ("other").data ("d").data ("t1").data).model_dump] :=
  C6_backfill_persisted_on_register.1 _ [legacyRecord] (by decide)

/-! ### C5: progressive-disclosure containment -/

lemma keys_dictInsert {k v : Str} {d : List (Str × Str)} :
    ∀ x ∈ (dictInsert k v d).map (fun kv => kv.1),
      x = k ∨ x ∈ d.map (fun kv => kv.1) := by
  intro x hx
  rw [dictInsert] at hx
  by_cases h : d.any (fun kv => kv.1 == k) = true
  · rw [if_pos h] at hx
    simp only [List.map_map, List.mem_map, Function.comp] at hx
    obtain ⟨kv, hkv, hval⟩ := hx
    by_cases hk : (kv.1 == k) = true
    · rw [if_pos hk] at hval
      exact Or.inl hval.symm
    · rw [if_neg hk] at hval
      exact Or.inr (List.mem_map.mpr ⟨kv, hkv, hval⟩)
  · rw [if_neg h] at hx
    simp only [List.map_append, List.mem_append, List.map_cons, List.map_nil,
      List.mem_singleton] at hx
    rcases hx with hx | hx
    · exact Or.inr hx
    · exact Or.inl hx

lemma level3Step_none {fs : List (Str × Str)} {acc : List (Str × Str)}
    {p : Str} (h : SkillRenderer.read_skill_file fs p = none) :
    level3Step fs acc p = acc := by
  rw [level3Step, h]

lemma level3Step_some {fs : List (Str × Str)} {acc : List (Str × Str)}
    {p content : Str}
    (h : SkillRenderer.read_skill_file fs p = some content) :
    level3Step fs acc p =
      if content.isEmpty then acc else dictInsert p content acc := by
  rw [level3Step, h]

lemma level3_foldl_keys (fs : List (Str × Str)) :
    ∀ (files : List Str) (acc : List (Str × Str)),
      ∀ k ∈ (files.foldl (level3Step fs) acc).map (fun kv => kv.1),
        k ∈ files ∨ k ∈ acc.map (fun kv => kv.1)
  | [], _, k, hk => Or.inr hk
  | p :: rest, acc, k, hk => by
    rw [List.foldl_cons] at hk
    have step := level3_foldl_keys fs rest (level3Step fs acc p) k hk
    rcases step with h | h
    · exact Or.inl (List.mem_cons_of_mem _ h)
    · cases hr : SkillRenderer.read_skill_file fs p with
      | none =>
        rw [level3Step_none hr] at h
        exact Or.inr h
      | some content =>
        rw [level3Step_some hr] at h
        by_cases he : content.isEmpty = true
        · rw [if_pos he] at h
          exact Or.inr h
        · rw [if_neg he] at h
          rcases keys_dictInsert k h with rfl | h2
          · exact Or.inl (List.mem_cons_self _ _)
          · exact Or.inr h2

/-- C5 amended: Level1's fields (`name`, `description`) are a strict subset
of Level2's (same values, and two skills can agree on Level1 while their
Level2 differ); the Level3 resource keys produced by the endpoint are a
subset of the files actually present in the skill's directory, and they are
a subset of the skill's declared file paths whenever the directory contains
only declared files. -/
theorem C5_projection_containment :
    (∀ skill : Skill,
      (SkillRenderer.get_skill_level1 skill).name
        = (SkillRenderer.get_skill_level2 skill).name ∧
      (SkillRenderer.get_skill_level1 skill).description
        = (SkillRenderer.get_skill_level2 skill).description) ∧
    (∃ s1 s2 : Skill,
      SkillRenderer.get_skill_level1 s1 = SkillRenderer.get_skill_level1 s2 ∧
      SkillRenderer.get_skill_level2 s1 ≠ SkillRenderer.get_skill_level2 s2) ∧
    (∀ (skill : Skill) (fs : List (Str × Str)),
      ∀ k ∈ (get_skill_level3_endpoint skill fs).resources.map
        (fun kv => kv.1), k ∈ SkillRenderer.list_skill_files fs) ∧
    (∀ (skill : Skill) (fs : List (Str × Str)),
      (∀ p ∈ SkillRenderer.list_skill_files fs,
        p ∈ skill.files.map SkillFile.path) →
      ∀ k ∈ (get_skill_level3_endpoint skill fs).resources.map
        (fun kv => kv.1), k ∈ skill.files.map SkillFile.path) := by
  have hkeys : ∀ (skill : Skill) (fs : List (Str × Str)),
      ∀ k ∈ (get_skill_level3_endpoint skill fs).resources.map
        (fun kv => kv.1), k ∈ SkillRenderer.list_skill_files fs := by
    intro skill fs k hk
    have h := level3_foldl_keys fs (SkillRenderer.list_skill_files fs) [] k hk
    rcases h with h | h
    · exact h
    · simp at h
  refine ⟨fun skill => ⟨rfl, rfl⟩, ?_, hkeys, ?_⟩
  · refine ⟨exSkill ("calc").data ("d").data ("t1").data,
      { exSkill ("calc").data ("d").data ("t1").data with
        version := ("2.0.0").data }, rfl, ?_⟩
    intro h
    have h2 := congrArg SkillLevel2.version h
    exact absurd h2 (by decide)
  · intro skill fs hsub k hk
    exact hsub k (hkeys skill fs k hk)

/-- A skill declaring only its canonical document. -/
def exSkillC5 : Skill :=
  { exSkill ("calc").data ("d").data ("t1").data with
    files := [⟨("SKILL.md").data, some ("text/markdown").data, none⟩] }

/-- Counterexample to C5 as stated: the endpoint keys its resource map by
the directory listing, so a file on disk that is not among the skill's
declared file paths still appears among the Level3 resource keys. -/
theorem C5_counterexample :
    ("extra.txt").data ∈ (get_skill_level3_endpoint exSkillC5
      [(("extra.txt").data, ("x").data)]).resources.map (fun kv => kv.1) ∧
    ("extra.txt").data ∉ exSkillC5.files.map SkillFile.path :=
  ⟨by decide, by decide⟩

/-- Witness for the amended C5: a directory holding exactly the declared
canonical document. -/
theorem C5_witness :
    ∀ k ∈ (get_skill_level3_endpoint exSkillC5
      [(("SKILL.md").data, ("# doc").data)]).resources.map (fun kv => kv.1),
      k ∈ exSkillC5.files.map SkillFile.path :=
  C5_projection_containment.2.2.2 exSkillC5
    [(("SKILL.md").data, ("# doc").data)] (by decide)

/-! ### C2: canonical document round-trip -/

lemma isPyWs_false_of_slugChar {c : Char} (h : isSlugChar c = true) :
    isPyWs c = false := by
  have h2 := not_ws_of_slugChar h
  rw [isWsOrUnderscore] at h2
  exact (Bool.or_eq_false_iff.mp h2).1

lemma isQuoteChar_false_of_slugChar {c : Char} (h : isSlugChar c = true) :
    isQuoteChar c = false := by
  rw [Bool.eq_false_iff]
  intro hq
  have h34 : qd.toNat = 34 := rfl
  have h39 : qs.toNat = 39 := rfl
  rw [isQuoteChar, Bool.or_eq_true, decide_eq_true_eq, decide_eq_true_eq,
    char_eq_iff_toNat, char_eq_iff_toNat, h34, h39] at hq
  rcases isSlugChar_iff.mp h with h' | h'
  · rcases isLowerAlnum_iff.mp h' with h'' | h'' <;> omega
  · omega

lemma splitNl_no_nl {l : Str} (h : '\n' ∉ l) : splitNl l = [l] := by
  induction l with
  | nil => rfl
  | cons c cs ih =>
    have hc : ¬ (c = '\n') := fun h2 => h (h2 ▸ List.mem_cons_self _ _)
    have ht := ih (fun hm => h (List.mem_cons_of_mem _ hm))
    rw [splitNl, if_neg hc, ht]

lemma splitNl_append_nl {l : Str} (h : '\n' ∉ l) (rest : Str) :
    splitNl (l ++ '\n' :: rest) = l :: splitNl rest := by
  induction l with
  | nil =>
    rw [List.nil_append, splitNl, if_pos rfl]
  | cons c cs ih =>
    have hc : ¬ (c = '\n') := fun h2 => h (h2 ▸ List.mem_cons_self _ _)
    have ht := ih (fun hm => h (List.mem_cons_of_mem _ hm))
    rw [List.cons_append, splitNl, if_neg hc, ht]

lemma joinNl_cons_of_ne {l : Str} {ls : List Str} (h : ls ≠ []) :
    joinNl (l :: ls) = l ++ '\n' :: joinNl ls := by
  cases ls with
  | nil => exact absurd rfl h
  | cons x xs => rfl

lemma splitNl_joinNl_front :
    ∀ (front : List Str), (∀ l ∈ front, '\n' ∉ l) →
    ∀ (rest : List Str), rest ≠ [] →
      splitNl (joinNl (front ++ rest)) = front ++ splitNl (joinNl rest)
  | [], _, rest, _ => by rw [List.nil_append, List.nil_append]
  | l :: front, h, rest, hr => by
    have hne : front ++ rest ≠ [] := by
      intro hx
      exact hr (List.append_eq_nil.mp hx).2
    rw [List.cons_append, joinNl_cons_of_ne hne,
      splitNl_append_nl (h l (List.mem_cons_self _ _)),
      splitNl_joinNl_front front
        (fun x hx => h x (List.mem_cons_of_mem _ hx)) rest hr,
      List.cons_append]

lemma findDelim_append {A : List Str} {b : Str}
    (hb : pyStripWs b = ("---").data) :
    ∀ (B : List Str), (∀ l ∈ A, ¬ (pyStripWs l = ("---").data)) →
      findDelim (A ++ b :: B) = some A.length := by
  induction A with
  | nil =>
    intro B _
    rw [List.nil_append, findDelim, if_pos hb]
    rfl
  | cons a A ih =>
    intro B hA
    rw [List.cons_append, findDelim, if_neg (hA a (List.mem_cons_self _ _)),
      ih B (fun x hx => hA x (List.mem_cons_of_mem _ hx))]
    rfl

lemma head?_append_left {A B : Str} {c : Char} (h : A.head? = some c) :
    (A ++ B).head? = some c := by
  rw [List.head?_append, h]
  rfl

lemma getLast?_append_right {A B : Str} (h : B ≠ []) :
    (A ++ B).getLast? = B.getLast? := by
  rw [List.getLast?_append]
  cases hB : B.getLast? with
  | none => exact absurd (List.getLast?_eq_none.mp hB) h
  | some x => rfl

lemma nameLine_stripped {slug : Str} (h1 : slug ≠ [])
    (h2 : ∀ c ∈ slug, isSlugChar c = true) :
    pyStripWs (("name: ").data ++ slug) = ("name: ").data ++ slug := by
  apply stripP_eq_self
  · intro c hc
    rw [head?_append_left (show (("name: ").data).head? = some 'n' from rfl)]
      at hc
    injection hc with hc
    subst hc
    decide
  · intro c hc
    rw [getLast?_append_right h1] at hc
    exact isPyWs_false_of_slugChar (h2 c (mem_of_getLast? hc))

lemma processLine_name (st : ParseState) {slug : Str} (h1 : slug ≠ [])
    (h2 : ∀ c ∈ slug, isSlugChar c = true) :
    processLine st (("name: ").data ++ slug) =
      { metadata := metaSet ("name").data (.str slug) st.metadata,
        currentKey := none } := by
  have hstrip := nameLine_stripped h1 h2
  have hvalstrip : pyStripWs (' ' :: slug) = slug := by
    rw [pyStripWs, stripP, lstripP, List.dropWhile_cons, if_pos (by decide),
      dropWhile_eq_self_of_head
        (fun c hc => isPyWs_false_of_slugChar (h2 c (mem_of_head? hc)))]
    exact rstripP_eq_self
      (fun c hc => isPyWs_false_of_slugChar (h2 c (mem_of_getLast? hc)))
  have hquotes : stripQuotes slug = slug :=
    stripP_eq_self
      (fun c hc => isQuoteChar_false_of_slugChar (h2 c (mem_of_head? hc)))
      (fun c hc => isQuoteChar_false_of_slugChar (h2 c (mem_of_getLast? hc)))
  have hse : slug.isEmpty = false := by
    rw [Bool.eq_false_iff]
    intro hx
    exact h1 (List.isEmpty_iff.mp hx)
  simp only [processLine, hstrip]
  show (if (false = true) then _ else _) = _
  rw [if_neg (by simp)]
  show (if (false = true) then _ else _) = _
  rw [if_neg (by simp)]
  show (if (true = true) then _ else _) = _
  rw [if_pos rfl]
  show (if (pyStripWs (' ' :: slug)).isEmpty = true then _ else _) = _
  rw [hvalstrip, hse, if_neg (by simp)]
  show ({ metadata :=
                (metaSet (pyStripWs (partitionColon
                    (("name: ").data ++ slug)).1)
                  (.str (stripQuotes (pyStripWs
                    (partitionColon (("name: ").data ++ slug)).2)))
                  st.metadata),
              currentKey := none } : ParseState) =
    { metadata := metaSet (("name").data) (.str slug) st.metadata,
      currentKey := none }
  rw [show pyStripWs (partitionColon (("name: ").data ++ slug)).1
      = ("name").data from rfl,
    show (partitionColon (("name: ").data ++ slug)).2 = ' ' :: slug from rfl,
    hvalstrip, hquotes]

lemma descLine_stripped (d : Str) :
    pyStripWs (("description: ").data ++ (qd :: (d ++ [qd])))
      = ("description: ").data ++ (qd :: (d ++ [qd])) := by
  apply stripP_eq_self
  · intro c hc
    rw [head?_append_left
      (show (("description: ").data).head? = some 'd' from rfl)] at hc
    injection hc with hc
    subst hc
    decide
  · intro c hc
    rw [getLast?_append_right (show qd :: (d ++ [qd]) ≠ [] from by simp),
      show qd :: (d ++ [qd]) = (qd :: d) ++ [qd] from by
        rw [List.cons_append],
      getLast?_append_right (show ([qd] : Str) ≠ [] from by simp)] at hc
    have hc2 : some qd = some c := hc
    injection hc2 with hc2
    subst hc2
    decide

lemma last_quoted (d : Str) : (qd :: (d ++ [qd])).getLast? = some qd := by
  rw [show qd :: (d ++ [qd]) = (qd :: d) ++ [qd] from by rw [List.cons_append],
    getLast?_append_right (show ([qd] : Str) ≠ [] from by simp)]
  rfl

lemma stripQuotes_quoted {d : Str}
    (hh : ∀ c, d.head? = some c → isQuoteChar c = false)
    (hl : ∀ c, d.getLast? = some c → isQuoteChar c = false) :
    stripQuotes (qd :: (d ++ [qd])) = d := by
  rw [stripQuotes, stripP, lstripP, List.dropWhile_cons, if_pos (by decide)]
  cases d with
  | nil =>
    rw [List.nil_append, List.dropWhile_cons, if_pos (by decide)]
    rfl
  | cons c d2 =>
    rw [List.cons_append, List.dropWhile_cons, if_neg (by simp [hh c rfl])]
    have hrev : (c :: (d2 ++ [qd])).reverse = qd :: (c :: d2).reverse := by
      rw [show c :: (d2 ++ [qd]) = (c :: d2) ++ [qd] from by
        rw [List.cons_append], List.reverse_append]
      rfl
    rw [rstripP, hrev, List.dropWhile_cons, if_pos (by decide),
      dropWhile_eq_self_of_head ?_, List.reverse_reverse]
    intro x hx
    rw [List.head?_reverse] at hx
    exact hl x hx

lemma processLine_desc (st : ParseState) {d : Str}
    (hh : ∀ c, d.head? = some c → isQuoteChar c = false)
    (hl : ∀ c, d.getLast? = some c → isQuoteChar c = false) :
    processLine st (("description: ").data ++ (qd :: (d ++ [qd]))) =
      { metadata := metaSet ("description").data (.str d) st.metadata,
        currentKey := none } := by
  have hstrip := descLine_stripped d
  have hvalstrip : pyStripWs (' ' :: (qd :: (d ++ [qd]))) = qd :: (d ++ [qd]) := by
    rw [pyStripWs, stripP, lstripP, List.dropWhile_cons, if_pos (by decide),
      List.dropWhile_cons, if_neg (by decide)]
    apply rstripP_eq_self
    intro c hc
    rw [last_quoted] at hc
    injection hc with hc
    subst hc
    decide
  simp only [processLine, hstrip]
  show (if (false = true) then _ else _) = _
  rw [if_neg (by simp)]
  show (if (false = true) then _ else _) = _
  rw [if_neg (by simp)]
  show (if (true = true) then _ else _) = _
  rw [if_pos rfl]
  show (if (pyStripWs (' ' :: (qd :: (d ++ [qd])))).isEmpty = true
    then _ else _) = _
  rw [hvalstrip, show ((qd :: (d ++ [qd])).isEmpty) = false from rfl,
    if_neg (by simp)]
  show ({ metadata :=
                (metaSet (pyStripWs (partitionColon
                    (("description: ").data ++ (qd :: (d ++ [qd])))).1)
                  (.str (stripQuotes (pyStripWs (partitionColon
                    (("description: ").data ++ (qd :: (d ++ [qd])))).2)))
                  st.metadata),
              currentKey := none } : ParseState) =
    { metadata := metaSet (("description").data) (.str d) st.metadata,
      currentKey := none }
  rw [show pyStripWs (partitionColon
      (("description: ").data ++ (qd :: (d ++ [qd])))).1
      = ("description").data from rfl,
    show (partitionColon (("description: ").data ++ (qd :: (d ++ [qd])))).2
      = ' ' :: (qd :: (d ++ [qd])) from rfl,
    hvalstrip, stripQuotes_quoted hh hl]

lemma versionLine_stripped (v : Str) :
    pyStripWs (("version: ").data ++ v) = ("version:").data ∨
    ∃ w, w ≠ [] ∧
      pyStripWs (("version: ").data ++ v) = ("version: ").data ++ w ∧
      (∀ c, w.getLast? = some c → isPyWs c = false) := by
  have hl : lstripP isPyWs (("version: ").data ++ v)
      = ("version: ").data ++ v := by
    apply dropWhile_eq_self_of_head
    intro c hc
    rw [head?_append_left
      (show (("version: ").data).head? = some 'v' from rfl)] at hc
    injection hc with hc
    subst hc
    decide
  rw [pyStripWs, stripP, hl, rstripP, List.reverse_append,
    List.dropWhile_append]
  by_cases hw : (v.reverse.dropWhile isPyWs).isEmpty = true
  · rw [if_pos hw]
    exact Or.inl rfl
  · rw [if_neg hw]
    refine Or.inr ⟨(v.reverse.dropWhile isPyWs).reverse, ?_, ?_, ?_⟩
    · intro hx
      apply hw
      rw [List.isEmpty_iff]
      have h2 := congrArg List.reverse hx
      rwa [List.reverse_reverse] at h2
    · rw [List.reverse_append, List.reverse_reverse]
    · intro c hc
      rw [List.getLast?_reverse] at hc
      exact head?_dropWhile_not hc

lemma processLine_version (st : ParseState) (v : Str) :
    ∃ mv ck, processLine st (("version: ").data ++ v) =
      { metadata := metaSet ("version").data mv st.metadata,
        currentKey := ck } := by
  rcases versionLine_stripped v with hs | ⟨w, hw, hs, hwl⟩
  · refine ⟨.lst [], some (("version").data), ?_⟩
    simp only [processLine, hs]
    rfl
  · have hvne : (pyStripWs (' ' :: w)).isEmpty = false := by
      cases hwv : w.getLast? with
      | none => exact absurd (List.getLast?_eq_none.mp hwv) hw
      | some c =>
        have hc : isPyWs c = false := hwl c hwv
        have hmem : c ∈ pyStripWs (' ' :: w) := by
          rw [pyStripWs, stripP, lstripP, List.dropWhile_cons,
            if_pos (by decide)]
          exact mem_rstripP (mem_dropWhile_of_not (mem_of_getLast? hwv) hc) hc
        rw [Bool.eq_false_iff]
        intro hx
        rw [List.isEmpty_iff.mp hx] at hmem
        simp at hmem
    refine ⟨.str (stripQuotes (pyStripWs (' ' :: w))), none, ?_⟩
    simp only [processLine, hs]
    show (if (false = true) then _ else _) = _
    rw [if_neg (by simp)]
    show (if (false = true) then _ else _) = _
    rw [if_neg (by simp)]
    show (if (true = true) then _ else _) = _
    rw [if_pos rfl]
    show (if (pyStripWs (' ' :: w)).isEmpty = true then _ else _) = _
    rw [hvne, if_neg (by simp)]
    show ({ metadata :=
                  (metaSet (pyStripWs (partitionColon
                      (("version: ").data ++ w)).1)
                    (.str (stripQuotes (pyStripWs
                      (partitionColon (("version: ").data ++ w)).2)))
                    st.metadata),
                currentKey := none } : ParseState) = _
    rw [show pyStripWs (partitionColon (("version: ").data ++ w)).1
        = ("version").data from rfl,
      show (partitionColon (("version: ").data ++ w)).2 = ' ' :: w from rfl]

lemma processLine_tagsOpen (st : ParseState) :
    processLine st (("tags:").data) =
      { metadata := metaSet ("tags").data (.lst []) st.metadata,
        currentKey := some (("tags").data) } := rfl

lemma tagLine_stripped {t : Str} (h1 : t ≠ [])
    (hl : ∀ c, t.getLast? = some c → isPyWs c = false) :
    pyStripWs (("  - ").data ++ t) = ("- ").data ++ t := by
  rw [pyStripWs, stripP, lstripP, show ("  - ").data ++ t
    = ' ' :: ' ' :: '-' :: ' ' :: t from rfl, List.dropWhile_cons,
    if_pos (by decide), List.dropWhile_cons, if_pos (by decide),
    List.dropWhile_cons, if_neg (by decide)]
  have h2 : rstripP isPyWs ('-' :: ' ' :: t) = '-' :: ' ' :: t := by
    apply rstripP_eq_self
    intro c hc
    rw [show '-' :: ' ' :: t = (['-', ' '] : Str) ++ t from rfl,
      getLast?_append_right h1] at hc
    exact hl c hc
  rw [h2]
  rfl

lemma processLine_tagItem {st : ParseState} {k t : Str}
    (hck : st.currentKey = some k) (h1 : t ≠ [])
    (hh : ∀ c, t.head? = some c → isPyWs c = false)
    (hl : ∀ c, t.getLast? = some c → isPyWs c = false) :
    processLine st (("  - ").data ++ t) =
      { st with metadata := metaAppend k t st.metadata } := by
  have hstrip := tagLine_stripped h1 hl
  have htstrip : pyStripWs t = t := stripP_eq_self hh hl
  have hpf : ((("- ").data).isPrefixOf (("- ").data ++ t)) = true :=
    List.isPrefixOf_iff_prefix.mpr (List.prefix_append _ _)
  simp only [processLine, hstrip]
  rw [if_neg (by simp), if_pos hpf, hck]
  have h3 : pyStripWs (List.drop 2 ((("- ").data : Str) ++ t)) = t := htstrip
  exact congrArg (fun md => ({ metadata := (metaAppend k md st.metadata), currentKey := some k } : ParseState)) h3

lemma metaAppend_skip (key k : Str) (h : ¬ (k = key)) (i : Str) (w : MetaVal)
    (rest : Metadata) :
    metaAppend key i ((k, w) :: rest) = (k, w) :: metaAppend key i rest := by
  simp only [metaAppend]
  rw [if_neg h]

lemma metaAppend_hit (k : Str) (i : Str) (l : List Str) (rest : Metadata) :
    metaAppend k i ((k, .lst l) :: rest) = (k, .lst (l ++ [i])) :: rest := by
  simp only [metaAppend]
  rw [if_pos trivial]

/-- The metadata dict built by the front-matter parser after the four header
lines, with the tags list at `l`. -/
def hdrMeta (slug d : Str) (mv : MetaVal) (l : List Str) : Metadata :=
  [((("name").data : Str), MetaVal.str slug),
   ((("description").data : Str), MetaVal.str d),
   ((("version").data : Str), mv),
   ((("tags").data : Str), MetaVal.lst l)]

lemma metaAppend_hdrMeta (slug d : Str) (mv : MetaVal) (l : List Str)
    (t : Str) :
    metaAppend (("tags").data) t (hdrMeta slug d mv l)
      = hdrMeta slug d mv (l ++ [t]) := by
  simp only [hdrMeta]
  rw [metaAppend_skip (("tags").data) (("name").data) (by decide),
    metaAppend_skip (("tags").data) (("description").data) (by decide),
    metaAppend_skip (("tags").data) (("version").data) (by decide),
    metaAppend_hit]

lemma tagFold_hdr (slug d : Str) (mv : MetaVal) :
    ∀ (tags l : List Str),
      (∀ t ∈ tags, t ≠ [] ∧
        (∀ c, t.head? = some c → isPyWs c = false) ∧
        (∀ c, t.getLast? = some c → isPyWs c = false)) →
      (tags.map (fun t => ("  - ").data ++ t)).foldl processLine
          { metadata := hdrMeta slug d mv l,
            currentKey := some (("tags").data) }
        = { metadata := hdrMeta slug d mv (l ++ tags),
            currentKey := some (("tags").data) }
  | [], l, _ => by rw [List.map_nil, List.foldl_nil, List.append_nil]
  | t :: tags, l, h => by
    obtain ⟨ht1, hth, htl⟩ := h t (List.mem_cons_self _ _)
    have hstep : processLine
        { metadata := hdrMeta slug d mv l,
          currentKey := some (("tags").data) } (("  - ").data ++ t)
        = { metadata := metaAppend (("tags").data) t (hdrMeta slug d mv l),
            currentKey := some (("tags").data) } :=
      @processLine_tagItem
        { metadata := hdrMeta slug d mv l,
          currentKey := some (("tags").data) }
        (("tags").data) t rfl ht1 hth htl
    rw [List.map_cons, List.foldl_cons, hstep, metaAppend_hdrMeta,
      tagFold_hdr slug d mv tags (l ++ [t])
        (fun x hx => h x (List.mem_cons_of_mem _ hx)),
      List.append_assoc]
    rfl

/-- The four header lines of the rendered front matter. -/
def hdrLines (slug d v : Str) : List Str :=
  [("name: ").data ++ slug,
   ("description: ").data ++ (qd :: (d ++ [qd])),
   ("version: ").data ++ v,
   ("tags:").data]

lemma hdrFold (slug d v : Str) (h1 : slug ≠ [])
    (h2 : ∀ c ∈ slug, isSlugChar c = true)
    (hh : ∀ c, d.head? = some c → isQuoteChar c = false)
    (hl : ∀ c, d.getLast? = some c → isQuoteChar c = false) :
    ∃ mv, List.foldl processLine { metadata := [], currentKey := none }
        (hdrLines slug d v)
      = { metadata := hdrMeta slug d mv [],
          currentKey := some (("tags").data) } := by
  obtain ⟨mv, ck, hv⟩ := processLine_version
    { metadata := [((("name").data : Str), MetaVal.str slug),
        ((("description").data : Str), MetaVal.str d)],
      currentKey := none } v
  refine ⟨mv, ?_⟩
  have e1 : processLine { metadata := ([] : Metadata), currentKey := none }
      (("name: ").data ++ slug)
      = { metadata := [((("name").data : Str), MetaVal.str slug)],
          currentKey := none } := processLine_name _ h1 h2
  have e2 : processLine
      { metadata := [((("name").data : Str), MetaVal.str slug)],
        currentKey := none }
      (("description: ").data ++ (qd :: (d ++ [qd])))
      = { metadata := [((("name").data : Str), MetaVal.str slug),
          ((("description").data : Str), MetaVal.str d)],
          currentKey := none } := processLine_desc _ hh hl
  have e3 : processLine
      { metadata := [((("name").data : Str), MetaVal.str slug),
          ((("description").data : Str), MetaVal.str d)],
        currentKey := none }
      (("version: ").data ++ v)
      = { metadata := [((("name").data : Str), MetaVal.str slug),
          ((("description").data : Str), MetaVal.str d),
          ((("version").data : Str), mv)],
          currentKey := ck } := hv
  have e4 : processLine
      { metadata := [((("name").data : Str), MetaVal.str slug),
          ((("description").data : Str), MetaVal.str d),
          ((("version").data : Str), mv)],
        currentKey := ck } (("tags:").data)
      = { metadata := hdrMeta slug d mv [],
          currentKey := some (("tags").data) } := processLine_tagsOpen _
  simp only [hdrLines]
  rw [List.foldl_cons, e1, List.foldl_cons, e2, List.foldl_cons, e3,
    List.foldl_cons, e4, List.foldl_nil]

lemma parse_skill_md_delim (H B0 : List Str) (doc : Str)
    (hH : ∀ l ∈ H, ¬ (pyStripWs l = ("---").data))
    (hcontent : splitNl doc = ("---").data :: (H ++ ("---").data :: B0)) :
    (DiscoveryClient.parse_skill_md doc).metadata
      = (H.foldl processLine
          { metadata := [], currentKey := none }).metadata := by
  have hdelim : findDelim (H ++ (['-', '-', '-'] : Str) :: B0)
      = some H.length :=
    @findDelim_append H (['-', '-', '-'] : Str) rfl B0 hH
  have hc : ¬ ¬ (pyStripWs ((['-', '-', '-'] : Str)) = (['-', '-', '-'] : Str)) :=
    not_not_intro rfl
  simp only [DiscoveryClient.parse_skill_md, hcontent]
  rw [if_neg hc]
  rw [show List.drop 1 ((['-', '-', '-'] : Str)
        :: (H ++ (['-', '-', '-'] : Str) :: B0))
      = H ++ (['-', '-', '-'] : Str) :: B0 from rfl]
  rw [hdelim]
  show (((H ++ (['-', '-', '-'] : Str) :: B0).take H.length).foldl processLine
      { metadata := [], currentKey := none }).metadata
    = (H.foldl processLine { metadata := [], currentKey := none }).metadata
  rw [List.take_left]

lemma parse_render_meta (skill : Skill)
    (h1 : skill.slug ≠ [])
    (h2 : ∀ c ∈ skill.slug, isSlugChar c = true)
    (hdnl : ¬ '\n' ∈ skill.description)
    (hdh : ∀ c, skill.description.head? = some c → isQuoteChar c = false)
    (hdl : ∀ c, skill.description.getLast? = some c → isQuoteChar c = false)
    (hvnl : ¬ '\n' ∈ skill.version)
    (hauthor : skill.author = none)
    (hins : skill.input_schema = [])
    (houts : skill.output_schema = none)
    (htagsne : skill.tags ≠ [])
    (htags : ∀ t ∈ skill.tags, t ≠ [] ∧ ¬ '\n' ∈ t ∧
      (∀ c, t.head? = some c → isPyWs c = false) ∧
      (∀ c, t.getLast? = some c → isPyWs c = false)) :
    ∃ mv, (DiscoveryClient.parse_skill_md
        (SkillRenderer.render_skill_md skill)).metadata
      = hdrMeta skill.slug skill.description mv skill.tags := by
  have htagsE : skill.tags.isEmpty = false := by
    rw [Bool.eq_false_iff]
    intro hx
    exact htagsne (List.isEmpty_iff.mp hx)
  obtain ⟨mv, hfold⟩ :=
    hdrFold skill.slug skill.description skill.version h1 h2 hdh hdl
  refine ⟨mv, ?_⟩
  have hlines : SkillRenderer.yamlLines skill ++ SkillRenderer.mdLines skill
      = (("---").data ::
          ((hdrLines skill.slug skill.description skill.version
            ++ skill.tags.map (fun t => ("  - ").data ++ t))
            ++ [("---").data]))
        ++ ([] :: SkillRenderer.mdLines skill) := by
    simp only [SkillRenderer.yamlLines, hdrLines, hauthor, hins, houts,
      htagsE]
    simp
  have hNl : ∀ l ∈ (("---").data ::
      ((hdrLines skill.slug skill.description skill.version
        ++ skill.tags.map (fun t => ("  - ").data ++ t))
        ++ [("---").data])), ¬ '\n' ∈ l := by
    intro l hlmem
    rcases List.mem_cons.mp hlmem with rfl | hlmem
    · decide
    · rcases List.mem_append.mp hlmem with hlmem | hlmem
      · rcases List.mem_append.mp hlmem with hlmem | hlmem
        · simp only [hdrLines, List.mem_cons, List.not_mem_nil, or_false]
            at hlmem
          rcases hlmem with rfl | rfl | rfl | rfl
          · intro hmem
            rcases List.mem_append.mp hmem with hmem | hmem
            · exact absurd hmem (by decide)
            · exact absurd (h2 _ hmem) (by decide)
          · intro hmem
            rcases List.mem_append.mp hmem with hmem | hmem
            · exact absurd hmem (by decide)
            · rcases List.mem_cons.mp hmem with hq | hmem
              · exact absurd hq (by decide)
              · rcases List.mem_append.mp hmem with hmem | hmem
                · exact hdnl hmem
                · exact absurd hmem (by decide)
          · intro hmem
            rcases List.mem_append.mp hmem with hmem | hmem
            · exact absurd hmem (by decide)
            · exact hvnl hmem
          · decide
        · obtain ⟨t, htmem, rfl⟩ := List.mem_map.mp hlmem
          intro hmem
          rcases List.mem_append.mp hmem with hmem | hmem
          · exact absurd hmem (by decide)
          · exact (htags t htmem).2.1 hmem
      · rcases List.mem_cons.mp hlmem with rfl | hlmem
        · decide
        · exact absurd hlmem (List.not_mem_nil _)
  have hH : ∀ l ∈ (hdrLines skill.slug skill.description skill.version
      ++ skill.tags.map (fun t => ("  - ").data ++ t)),
      ¬ (pyStripWs l = ("---").data) := by
    intro l hlmem
    rcases List.mem_append.mp hlmem with hlmem | hlmem
    · simp only [hdrLines, List.mem_cons, List.not_mem_nil, or_false]
        at hlmem
      rcases hlmem with rfl | rfl | rfl | rfl
      · rw [nameLine_stripped h1 h2]
        intro hx
        have h3 := congrArg List.head? hx
        rw [head?_append_left
          (show (("name: ").data).head? = some 'n' from rfl)] at h3
        exact absurd h3 (by decide)
      · rw [descLine_stripped]
        intro hx
        have h3 := congrArg List.head? hx
        rw [head?_append_left
          (show (("description: ").data).head? = some 'd' from rfl)] at h3
        exact absurd h3 (by decide)
      · rcases versionLine_stripped skill.version with hs | ⟨w, _, hs, _⟩
        · rw [hs]
          decide
        · rw [hs]
          intro hx
          have h3 := congrArg List.head? hx
          rw [head?_append_left
            (show (("version: ").data).head? = some 'v' from rfl)] at h3
          exact absurd h3 (by decide)
      · decide
    · obtain ⟨t, htmem, rfl⟩ := List.mem_map.mp hlmem
      obtain ⟨ht1, _, _, htl⟩ := htags t htmem
      rw [tagLine_stripped ht1 htl]
      intro hx
      have h3 := congrArg (fun s => List.head? (List.tail s)) hx
      exact absurd (show (some ' ' : Option Char) = some '-' from h3)
        (by decide)
  have hsplit := splitNl_joinNl_front
    (("---").data ::
      ((hdrLines skill.slug skill.description skill.version
        ++ skill.tags.map (fun t => ("  - ").data ++ t))
        ++ [("---").data]))
    hNl ([] :: SkillRenderer.mdLines skill) (by simp)
  have hsplit2 : splitNl (SkillRenderer.render_skill_md skill)
      = ("---").data ::
          ((hdrLines skill.slug skill.description skill.version
            ++ skill.tags.map (fun t => ("  - ").data ++ t))
            ++ ("---").data
              :: splitNl (joinNl ([] :: SkillRenderer.mdLines skill))) := by
    simp only [SkillRenderer.render_skill_md]
    rw [hlines, hsplit, List.cons_append, List.append_assoc]
    rfl
  rw [parse_skill_md_delim
    (hdrLines skill.slug skill.description skill.version
      ++ skill.tags.map (fun t => ("  - ").data ++ t))
    (splitNl (joinNl ([] :: SkillRenderer.mdLines skill)))
    (SkillRenderer.render_skill_md skill) hH hsplit2]
  rw [List.foldl_append, hfold,
    tagFold_hdr skill.slug skill.description mv skill.tags []
      (fun t ht => ⟨(htags t ht).1, (htags t ht).2.2.1, (htags t ht).2.2.2⟩),
    List.nil_append]

/-- C2 (amended): for a skill whose slug is a nonempty strict slug, whose
description contains no newline and no quote character at either end, whose
version contains no newline, with no author, an empty input schema, no
output schema, and a nonempty list of tags each nonempty, newline-free and
whitespace-trimmed, parsing the rendered canonical document recovers the
slug under `name`, the description and the tags exactly. -/
theorem C2_roundtrip_clean (skill : Skill)
    (h1 : skill.slug ≠ [])
    (h2 : ∀ c ∈ skill.slug, isSlugChar c = true)
    (hdnl : ¬ '\n' ∈ skill.description)
    (hdh : ∀ c, skill.description.head? = some c → isQuoteChar c = false)
    (hdl : ∀ c, skill.description.getLast? = some c → isQuoteChar c = false)
    (hvnl : ¬ '\n' ∈ skill.version)
    (hauthor : skill.author = none)
    (hins : skill.input_schema = [])
    (houts : skill.output_schema = none)
    (htagsne : skill.tags ≠ [])
    (htags : ∀ t ∈ skill.tags, t ≠ [] ∧ ¬ '\n' ∈ t ∧
      (∀ c, t.head? = some c → isPyWs c = false) ∧
      (∀ c, t.getLast? = some c → isPyWs c = false)) :
    metaGet? ((DiscoveryClient.parse_skill_md
        (SkillRenderer.render_skill_md skill)).metadata) (("name").data)
      = some (.str skill.slug) ∧
    metaGet? ((DiscoveryClient.parse_skill_md
        (SkillRenderer.render_skill_md skill)).metadata) (("description").data)
      = some (.str skill.description) ∧
    metaGet? ((DiscoveryClient.parse_skill_md
        (SkillRenderer.render_skill_md skill)).metadata) (("tags").data)
      = some (.lst skill.tags) := by
  obtain ⟨mv, hmeta⟩ := parse_render_meta skill h1 h2 hdnl hdh hdl hvnl
    hauthor hins houts htagsne htags
  rw [hmeta]
  exact ⟨rfl, rfl, rfl⟩

/-- Counterexample to C2 as stated: a description containing a newline uses
no special YAML quoting character and no quote character, yet the rendered
document parses back with a truncated description. -/
theorem C2_counterexample :
    (∀ c ∈ (exSkill ("calc").data ('a' :: '\n' :: 'b' :: [])
        ("t1").data).description,
      specialYamlChars.contains c = false ∧ isQuoteChar c = false) ∧
    (∀ t ∈ (exSkill ("calc").data ('a' :: '\n' :: 'b' :: [])
        ("t1").data).tags, ∀ c ∈ t,
      specialYamlChars.contains c = false ∧ isQuoteChar c = false) ∧
    ¬ (metaGet? ((DiscoveryClient.parse_skill_md
        (SkillRenderer.render_skill_md
          (exSkill ("calc").data ('a' :: '\n' :: 'b' :: [])
            ("t1").data))).metadata) (("description").data)
      = some (.str (exSkill ("calc").data ('a' :: '\n' :: 'b' :: [])
          ("t1").data).description)) :=
  ⟨by decide, by decide, by decide⟩

/-- Witness for the amended C2 at a concrete clean skill. -/
theorem C2_witness :
    metaGet? ((DiscoveryClient.parse_skill_md
        (SkillRenderer.render_skill_md
          (exSkill ("calc").data ("adds").data ("t1").data))).metadata)
        (("name").data)
      = some (.str (exSkill ("calc").data ("adds").data ("t1").data).slug) ∧
    metaGet? ((DiscoveryClient.parse_skill_md
        (SkillRenderer.render_skill_md
          (exSkill ("calc").data ("adds").data ("t1").data))).metadata)
        (("description").data)
      = some (.str (exSkill ("calc").data ("adds").data
          ("t1").data).description) ∧
    metaGet? ((DiscoveryClient.parse_skill_md
        (SkillRenderer.render_skill_md
          (exSkill ("calc").data ("adds").data ("t1").data))).metadata)
        (("tags").data)
      = some (.lst (exSkill ("calc").data ("adds").data ("t1").data).tags) :=
  C2_roundtrip_clean (exSkill ("calc").data ("adds").data ("t1").data)
    (by decide) (by decide) (by decide)
    (by intro c hc; injection hc with h; subst h; decide)
    (by intro c hc; injection hc with h; subst h; decide)
    (by decide) rfl rfl rfl (by decide)
    (by
      intro t ht
      rcases List.mem_cons.mp ht with rfl | ht2
      · refine ⟨by decide, by decide, ?_, ?_⟩
        · intro c hc
          injection hc with h
          subst h
          decide
        · intro c hc
          injection hc with h
          subst h
          decide
      · exact absurd ht2 (List.not_mem_nil _))

/-- Witness for C3 at the concrete input "My Great Skill". -/
theorem C3_witness :
    normalize_skill_name (normalize_skill_name ("My Great Skill").data) =
      normalize_skill_name ("My Great Skill").data ∧
    validate_skill_name (normalize_skill_name ("My Great Skill").data) = true :=
  ⟨C3_normalize_idempotent_validate.1 _,
    C3_normalize_idempotent_validate.2 _ ⟨'M', by decide, by decide⟩⟩

end AgentSkills
